import Mathlib

/-!
Verification development for the solderium library (`src/lib.rs`): the
`generate_symlinks` directory-merging algorithm, its four overwrite policies
(`All`, `Dirs`, `Files`, `None`), the `.keep` marker protection logic
(`keep_path`), and the filesystem primitives it relies on.

The filesystem is modelled as a tree of nodes (regular files, symbolic links
carrying an absolute target path, directories carrying named entries).  Path
resolution follows symbolic links with an explicit fuel bound (real kernels
bound the number of link hops; `ELOOP` is modelled as resolution failure).
`stat`-like queries (`Path::exists`, `Path::is_file`, `Path::is_dir`) fully
resolve the path; `lstat`-like queries (`Path::is_symlink`, `read_link`)
resolve only the parent and inspect the final entry raw, exactly as the
corresponding POSIX calls behave.
-/

namespace Solderium

/-- Absolute filesystem paths, as the list of components below the root. -/
abbrev FPath := List String

/-- Filesystem nodes: regular files, symbolic links (holding the literal,
absolute link target), and directories (holding an ordered list of named
entries). -/
inductive Node where
  | file : Node
  | symlink : FPath → Node
  | dir : List (String × Node) → Node
  deriving Repr

/-- Look up a named entry in a directory entry list. -/
def findEntry : List (String × Node) → String → Option Node
  | [], _ => none
  | (n, v) :: rest, c => if n = c then some v else findEntry rest c

/-- Structural lookup of the node at a path; no symlink is followed. -/
def getNode : Node → FPath → Option Node
  | n, [] => some n
  | Node.dir es, c :: rest =>
    match findEntry es c with
    | some child => getNode child rest
    | none => none
  | Node.file, _ :: _ => none
  | Node.symlink _, _ :: _ => none

/-- Intermediate result of walking a path without following any symlink:
either the walk finishes (successfully or not), or it reaches a symlink and
asks for the spliced path to be resolved from the root. -/
inductive WalkRes where
  | res : Option FPath → WalkRes
  | splice : FPath → WalkRes

/-- Walk the remaining components `p` below the already-resolved (and
symlink-free) prefix `acc`.  Stops at the first symlink encountered and
returns the spliced path (link target followed by the remaining
components). -/
def walk (fs : Node) : FPath → FPath → WalkRes
  | acc, [] => WalkRes.res (some acc)
  | acc, c :: rest =>
    match getNode fs acc with
    | some (Node.dir es) =>
      match findEntry es c with
      | some Node.file =>
        WalkRes.res (if rest.isEmpty then some (acc ++ [c]) else none)
      | some (Node.dir _) => walk fs (acc ++ [c]) rest
      | some (Node.symlink tgt) => WalkRes.splice (tgt ++ rest)
      | none => WalkRes.res none
    | _ => WalkRes.res none

/-- Resolve a path against the filesystem rooted at `fs`, following symbolic
links.  Each symlink hop consumes one unit of `fuel`; running out of fuel
models `ELOOP`.  A successful result is a fully resolved, symlink-free path. -/
def resolveFrom (fs : Node) : Nat → FPath → Option FPath
  | 0, p =>
    match walk fs [] p with
    | WalkRes.res r => r
    | WalkRes.splice _ => none
  | Nat.succ fuel', p =>
    match walk fs [] p with
    | WalkRes.res r => r
    | WalkRes.splice q => resolveFrom fs fuel' q

/-- Node reached by a fully resolving (`stat`-like) lookup.  Never a symlink. -/
def statNode (fs : Node) (fuel : Nat) (p : FPath) : Option Node :=
  match resolveFrom fs fuel p with
  | some cp => getNode fs cp
  | none => none

/-- Models `Path::exists`: follows symlinks; false for a dangling link. -/
def pathExists (fs : Node) (fuel : Nat) (p : FPath) : Bool :=
  (statNode fs fuel p).isSome

/-- Models `Path::is_file`: follows symlinks. -/
def isFilePath (fs : Node) (fuel : Nat) (p : FPath) : Bool :=
  match statNode fs fuel p with
  | some Node.file => true
  | _ => false

/-- Models `Path::is_dir`: follows symlinks. -/
def isDirPath (fs : Node) (fuel : Nat) (p : FPath) : Bool :=
  match statNode fs fuel p with
  | some (Node.dir _) => true
  | _ => false

/-- Node at the `lstat` location of `p`: the parent chain is fully resolved,
the final entry is inspected raw (it may be a symlink). -/
def lstatNode (fs : Node) (fuel : Nat) (p : FPath) : Option Node :=
  match p.getLast? with
  | none => some fs
  | some last =>
    match resolveFrom fs fuel p.dropLast with
    | some pp =>
      match getNode fs pp with
      | some (Node.dir es) => findEntry es last
      | _ => none
    | none => none

/-- Models `Path::is_symlink` (via `symlink_metadata`). -/
def isSymlinkPath (fs : Node) (fuel : Nat) (p : FPath) : Bool :=
  match lstatNode fs fuel p with
  | some (Node.symlink _) => true
  | _ => false

/-- Models `Path::read_link`: the literal link target of the entry at `p`. -/
def readLinkPath (fs : Node) (fuel : Nat) (p : FPath) : Option FPath :=
  match lstatNode fs fuel p with
  | some (Node.symlink t) => some t
  | _ => none

/-- Models `resolve_symlink` from the source: if `path` is itself a symlink,
return the literal `read_link` result (one level), else the path unchanged. -/
def resolve_symlink (fs : Node) (fuel : Nat) (p : FPath) : Option FPath :=
  if isSymlinkPath fs fuel p then readLinkPath fs fuel p else some p

/-! Filesystem mutation primitives.  Both removal and symlink creation operate
at the `lstat` location of the given path: the parent chain is fully resolved,
then the final entry of the resulting directory is deleted or inserted. -/

/-- Apply `g` to the first entry named `c` of an entry list. -/
def updateFirst (c : String) (g : Node → Node) :
    List (String × Node) → List (String × Node)
  | [] => []
  | (n, v) :: tl =>
    if n = c then (n, g v) :: tl else (n, v) :: updateFirst c g tl

/-- Rebuild the tree, applying `f` to the entry list of the directory reached
by the structural path `t`.  Unreachable paths leave the tree unchanged. -/
def updateAt (f : List (String × Node) → List (String × Node)) :
    FPath → Node → Node
  | [], Node.dir es => Node.dir (f es)
  | [], n => n
  | c :: rest, Node.dir es =>
    Node.dir (updateFirst c (fun v => updateAt f rest v) es)
  | _ :: _, n => n

/-- Delete the entry named `c` from an entry list. -/
def delEntry (es : List (String × Node)) (c : String) : List (String × Node) :=
  es.filter (fun e => decide (e.1 ≠ c))

/-- Unlink the `lstat` entry at `p`: resolve the parent chain, then delete the
final entry from the parent directory.  Fails (`none`) if the parent does not
resolve to a directory or the entry does not exist, or if `p` is the root. -/
def removeAtPath (fs : Node) (fuel : Nat) (p : FPath) : Option Node :=
  match p.getLast? with
  | none => none
  | some last =>
    match resolveFrom fs fuel p.dropLast with
    | some pp =>
      match getNode fs pp with
      | some (Node.dir es) =>
        match findEntry es last with
        | some _ => some (updateAt (fun l => delEntry l last) pp fs)
        | none => none
      | _ => none
    | none => none

/-- Models `remove_path` from the source.  `is_file` (which follows symlinks)
selects `remove_file` for files and `remove_dir_all` otherwise.  `remove_file`
unlinks the entry at `p` (a symlink to a file is unlinked, its referent kept).
`remove_dir_all` first `lstat`s its argument: a symlink is merely unlinked, a
real directory is removed together with its contents.  In this tree model all
three behaviours delete the `lstat` entry at `p`. -/
def remove_path (fs : Node) (fuel : Nat) (p : FPath) : Option Node :=
  if isFilePath fs fuel p then removeAtPath fs fuel p
  else removeAtPath fs fuel p

/-- Models `std::os::unix::fs::symlink(original, link)`: create a symlink at
`link` whose literal target is `original`.  The parent of `link` is resolved;
creation fails if any entry (even a dangling symlink) already exists at the
`lstat` location (`EEXIST`), mirroring the syscall. -/
def createSymlink (fs : Node) (fuel : Nat) (original link : FPath) :
    Option Node :=
  match link.getLast? with
  | none => none
  | some last =>
    match resolveFrom fs fuel link.dropLast with
    | some pp =>
      match getNode fs pp with
      | some (Node.dir es) =>
        match findEntry es last with
        | some _ => none
        | none =>
          some (updateAt (fun l => l ++ [(last, Node.symlink original)]) pp fs)
      | _ => none
    | none => none

/-! Marker-file ("keep") protection logic, mirroring `keep_path`. -/

/-- Models `PathBuf::set_file_name`: replace the final component (on the root,
which has no file name, the component is appended). -/
def set_file_name (p : FPath) (k : String) : FPath :=
  p.dropLast ++ [k]

/-- Ascending chain of prefixes of a path: the root first, the path itself
last. -/
def prefixesUp : FPath → List FPath
  | [] => [[]]
  | c :: rest => [] :: (prefixesUp rest).map (fun q => c :: q)

/-- Models `Path::ancestors`: the path itself, then each parent in turn, up to
and including the filesystem root (the descending chain of prefixes). -/
def ancestors (p : FPath) : List FPath :=
  (prefixesUp p).reverse

/-- Models `keep_path` from the source: the path is protected when one of the
marker names exists directly inside it, or when any ancestor of the path (all
the way up to the filesystem root) has a sibling entry carrying a marker
name. -/
def keep_path (fs : Node) (fuel : Nat) (p : FPath) (keep : List String) : Bool :=
  (keep.any (fun k => pathExists fs fuel (p ++ [k])))
  || ((ancestors p).any (fun a => keep.any (fun k =>
        pathExists fs fuel (set_file_name a k))))

/-! Traversal engine: the explicit work stack and the main loop. -/

/-- Models `Path::strip_prefix`: the suffix of `p` after removing `base`. -/
def strip_base : FPath → FPath → Option FPath
  | [], p => some p
  | b :: bs, c :: cs => if b = c then strip_base bs cs else none
  | _ :: _, [] => none

/-- Models `read_dir`: fully resolve the path to a directory and list it; each
entry's path is the argument path extended by the entry name (as `DirEntry`
paths are built from the path handed to `read_dir`). -/
def read_dir (fs : Node) (fuel : Nat) (p : FPath) : Option (List FPath) :=
  match statNode fs fuel p with
  | some (Node.dir es) => some (es.map (fun e => p ++ [e.1]))
  | _ => none

/-- Models `go_deeper`: dereference `path` one level if it is a symlink, list
the resulting directory and push every entry onto the stack.  The stack is a
LIFO with its top at the head; `Vec::extend` pushes the listing in order, so
the listing is reversed onto the head (last-listed entry popped first). -/
def go_deeper (fs : Node) (fuel : Nat) (stack : List FPath) (p : FPath) :
    Option (List FPath) :=
  match resolve_symlink fs fuel p with
  | some rp =>
    match read_dir fs fuel rp with
    | some entries => some (entries.reverse ++ stack)
    | none => none
  | none => none

/-- Overwrite policies, as in the source. -/
inductive Overwrite where
  | All : Overwrite
  | Dirs : Overwrite
  | Files : Overwrite
  | None : Overwrite

/-- Action selected for one popped entry.  `skip` is `continue`;
`pushSrc` lists the source subdirectory and continues; `pushIfDir` lists the
source entry only when it is a directory, then continues; `removeThenLink`
deletes the existing target and falls through to symlink creation; `link`
creates the symlink directly (target path does not exist). -/
inductive Action where
  | skip : Action
  | pushSrc : Action
  | pushIfDir : Action
  | removeThenLink : Action
  | link : Action

/-- Decision table of the main loop of `generate_symlinks` (lines 59-134 of
the source): a pure function of the policy, the target path's current state
and the keep-marker checks. -/
def decide_action (fs : Node) (fuel : Nat) (ow : Overwrite)
    (source_path target_path : FPath) : Action :=
  if pathExists fs fuel target_path then
    match ow with
    | Overwrite.All =>
      if isFilePath fs fuel target_path then
        if keep_path fs fuel target_path [".keep", ".keep_files"] then
          Action.skip
        else Action.removeThenLink
      else
        if keep_path fs fuel target_path [".keep", ".keep_dirs"] then
          Action.pushSrc
        else Action.removeThenLink
    | Overwrite.Dirs =>
      if !isDirPath fs fuel target_path then Action.skip
      else if keep_path fs fuel target_path [".keep", ".keep_dirs"] then
        Action.pushSrc
      else Action.removeThenLink
    | Overwrite.Files =>
      if !isFilePath fs fuel target_path then Action.pushIfDir
      else if keep_path fs fuel target_path [".keep", ".keep_files"] then
        Action.skip
      else Action.removeThenLink
    | Overwrite.None => Action.pushIfDir
  else Action.link

/-- Traversal state: current filesystem, work stack, and a log of performed
removals (each recorded with the `stat` result of the removed target path at
removal time). -/
structure St where
  fs : Node
  stack : List FPath
  log : List (FPath × Option Node)

/-- Outcome of one iteration of the main loop. -/
inductive StepRes where
  | done : St → StepRes
  | fail : St → StepRes
  | next : St → StepRes

/-- One iteration of the main loop of `generate_symlinks`: pop an entry,
compute the mirrored target path, act according to the decision table, and
either continue, finish (empty stack) or abort on the first error. -/
def loopStep (source target : FPath) (ow : Overwrite) (fuel : Nat) (s : St) :
    StepRes :=
  match s.stack with
  | [] => StepRes.done s
  | source_path :: rest =>
    match strip_base source source_path with
    | none => StepRes.fail s
    | some relp =>
      let target_path := target ++ relp
      match decide_action s.fs fuel ow source_path target_path with
      | Action.skip => StepRes.next ⟨s.fs, rest, s.log⟩
      | Action.pushSrc =>
        match go_deeper s.fs fuel rest source_path with
        | some st => StepRes.next ⟨s.fs, st, s.log⟩
        | none => StepRes.fail s
      | Action.pushIfDir =>
        if isDirPath s.fs fuel source_path then
          match go_deeper s.fs fuel rest source_path with
          | some st => StepRes.next ⟨s.fs, st, s.log⟩
          | none => StepRes.fail s
        else StepRes.next ⟨s.fs, rest, s.log⟩
      | Action.removeThenLink =>
        let rec0 := (target_path, statNode s.fs fuel target_path)
        match remove_path s.fs fuel target_path with
        | none => StepRes.fail s
        | some fs' =>
          match createSymlink fs' fuel source_path target_path with
          | some fs'' => StepRes.next ⟨fs'', rest, rec0 :: s.log⟩
          | none => StepRes.fail ⟨fs', rest, rec0 :: s.log⟩
      | Action.link =>
        match createSymlink s.fs fuel source_path target_path with
        | some fs' => StepRes.next ⟨fs', rest, s.log⟩
        | none => StepRes.fail s

/-- Result of running the loop: success, abort on first error, or out of
iteration budget (`out` marks a run that has not finished, carrying the state
reached so far). -/
inductive RunResult where
  | ok : St → RunResult
  | err : St → RunResult
  | out : St → RunResult

/-- The main loop, driven by an iteration budget `steps`. -/
def runLoop (source target : FPath) (ow : Overwrite) (fuel : Nat) :
    Nat → St → RunResult
  | 0, s => RunResult.out s
  | Nat.succ n, s =>
    match loopStep source target ow fuel s with
    | StepRes.done s' => RunResult.ok s'
    | StepRes.fail s' => RunResult.err s'
    | StepRes.next s' => runLoop source target ow fuel n s'

/-- Models `Path::canonicalize`: full resolution; fails when the path does not
exist or cannot be resolved. -/
def canonicalize (fs : Node) (fuel : Nat) (p : FPath) : Option FPath :=
  resolveFrom fs fuel p

/-- Models `generate_symlinks`: canonicalize both roots, validate that both
are directories, seed the stack with the source root's listing, then run the
main loop.  Validation or seeding failure aborts with the filesystem
untouched. -/
def generate_symlinks (fs : Node) (source target : FPath) (ow : Overwrite)
    (fuel steps : Nat) : RunResult :=
  match canonicalize fs fuel source with
  | none => RunResult.err ⟨fs, [], []⟩
  | some src =>
    match canonicalize fs fuel target with
    | none => RunResult.err ⟨fs, [], []⟩
    | some tgt =>
      if !(isDirPath fs fuel src) || !(isDirPath fs fuel tgt) then
        RunResult.err ⟨fs, [], []⟩
      else
        match resolve_symlink fs fuel src with
        | none => RunResult.err ⟨fs, [], []⟩
        | some src' =>
          match go_deeper fs fuel [] src' with
          | none => RunResult.err ⟨fs, [], []⟩
          | some st0 => runLoop src tgt ow fuel steps ⟨fs, st0, []⟩

/-! Observers on run results, used to state concrete facts about runs. -/

/-- The state carried by a run result (also on abort or exhaustion). -/
def resSt : RunResult → St
  | RunResult.ok s => s
  | RunResult.err s => s
  | RunResult.out s => s

/-- The filesystem carried by a run result. -/
def resFs (r : RunResult) : Node := (resSt r).fs

/-- The removal log carried by a run result. -/
def resLog (r : RunResult) : List (FPath × Option Node) := (resSt r).log

/-- True exactly for a successful (`Ok(())`) run. -/
def runOk : RunResult → Bool
  | RunResult.ok _ => true
  | _ => false

/-- True exactly for an aborted (error) run. -/
def runErr : RunResult → Bool
  | RunResult.err _ => true
  | _ => false

/-- True when the run has finished (successfully or with an error) rather
than exhausting its iteration budget. -/
def finished : RunResult → Bool
  | RunResult.out _ => false
  | _ => true

/-- Equality of filesystem trees up to the order of directory entries (the
on-disk state does not order entries; the model keeps them as lists).  The
comparison descends at most `depth` levels; any depth at least the height of
both trees is exact. -/
def nodeEquiv : Nat → Node → Node → Bool
  | 0, _, _ => false
  | Nat.succ d, a, b =>
    match a, b with
    | Node.file, Node.file => true
    | Node.symlink x, Node.symlink y => x == y
    | Node.dir es, Node.dir fs =>
      es.length == fs.length &&
      es.all (fun e =>
        match findEntry fs e.1 with
        | some v' => nodeEquiv d e.2 v'
        | none => false)
    | _, _ => false

/-! Concrete filesystems used by the claim theorems below. -/

/-- The §8 fixture's source tree (`test_dir1` of the repository's tests). -/
def srcNode : Node := Node.dir
  [ ("lorem.txt", Node.file)
  , ("ipsum.php", Node.file)
  , ("keep", Node.dir
      [("haha.yml", Node.file), ("do_not_overwrite.txt", Node.file)])
  , ("nested", Node.dir
      [("lorem", Node.dir []), ("dolor.cpp", Node.file)]) ]

/-- The §8 fixture's target tree (`test_dir2` of the repository's tests). -/
def tgtNode : Node := Node.dir
  [ ("index.html", Node.file)
  , ("ipsum.php", Node.file)
  , ("keep", Node.dir
      [(".keep", Node.file), ("do_not_overwrite.txt", Node.file)])
  , ("nested", Node.dir
      [("dolor.cpp", Node.file), ("original.rs", Node.file)]) ]

/-- The §8 fixture: source at `/s`, target at `/t`. -/
def fixFs : Node := Node.dir [("s", srcNode), ("t", tgtNode)]

/-- Run `generate_symlinks` on the §8 fixture with ample fuel. -/
def runFix (ow : Overwrite) : RunResult :=
  generate_symlinks fixFs ["s"] ["t"] ow 20 60

/-- Run the §8 fixture twice with the same arguments and compare the two final
filesystems up to directory-entry order. -/
def runTwiceEquiv (ow : Overwrite) : Bool :=
  match generate_symlinks fixFs ["s"] ["t"] ow 20 60 with
  | RunResult.ok s1 =>
    match generate_symlinks s1.fs ["s"] ["t"] ow 20 60 with
    | RunResult.ok s2 => nodeEquiv 10 s2.fs s1.fs
    | _ => false
  | _ => false

/-- Filesystem whose target tree holds, at `/t/d`, a pre-existing symlink
whose referent `/r` is a directory. -/
def c1Fs : Node := Node.dir
  [ ("s", Node.dir [("d", Node.dir [])])
  , ("t", Node.dir [("d", Node.symlink ["r"])])
  , ("r", Node.dir []) ]

/-- Run of `generate_symlinks` over `c1Fs` under policy `Dirs`. -/
def c1Run : RunResult := generate_symlinks c1Fs ["s"] ["t"] Overwrite.Dirs 20 20

/-- Filesystem with a marker file at `/m/.keep`, next to an ancestor of the
target root `/m/t` — outside the target root's subtree. -/
def c2Fs : Node := Node.dir
  [ ("m", Node.dir
      [ (".keep", Node.file)
      , ("t", Node.dir [("d", Node.dir [("x", Node.file)])]) ])
  , ("s", Node.dir [("d", Node.dir [("x", Node.file)])]) ]

/-- Run of `generate_symlinks` over `c2Fs` under policy `All`. -/
def c2Run : RunResult :=
  generate_symlinks c2Fs ["s"] ["m", "t"] Overwrite.All 20 20

/-- Filesystem on which the first `Files` run links an entire directory,
so the second run traverses the created symlink. -/
def c5Fs : Node := Node.dir
  [ ("s", Node.dir [("d", Node.dir [("x", Node.file)])])
  , ("t", Node.dir []) ]

/-- First `Files` run over `c5Fs`. -/
def c5Once : RunResult :=
  generate_symlinks c5Fs ["s"] ["t"] Overwrite.Files 20 20

/-- Second `Files` run, from the state the first run produced. -/
def c5Twice : RunResult :=
  generate_symlinks (resFs c5Once) ["s"] ["t"] Overwrite.Files 20 20

/-- Filesystem with a keep-protected target directory `/m/t/d` whose child
`/m/t/d/x` does not exist, while the source child `/s/d/x` does. -/
def c4Fs : Node := Node.dir
  [ ("m", Node.dir
      [ (".keep", Node.file)
      , ("t", Node.dir [("d", Node.dir [])]) ])
  , ("s", Node.dir [("d", Node.dir [("x", Node.file)])]) ]

/-- Filesystem whose `/f` is a regular file, unusable as a source root. -/
def c7Fs : Node := Node.dir [("f", Node.file), ("t", Node.dir [])]

/-- Filesystem with a dangling symlink at the mirrored target path `/t/a`. -/
def c9Fs : Node := Node.dir
  [ ("s", Node.dir [("a", Node.file)])
  , ("t", Node.dir [("a", Node.symlink ["gone"])]) ]

/-- Filesystem with a symlink `/ln` whose referent `/d` is a directory. -/
def c10Fs : Node := Node.dir [("d", Node.dir []), ("ln", Node.symlink ["d"])]

/-- Filesystem with a cyclic source symlink: `/s/a` points back at `/s`,
and the mirrored target `/t/a` exists, so policy `None` keeps re-listing. -/
def c8Fs : Node := Node.dir
  [ ("s", Node.dir [("a", Node.symlink ["s"])])
  , ("t", Node.dir [("a", Node.file)]) ]

/-- Classification of removals recorded in the run log, per policy: `Dirs`
may only remove targets that resolve to directories, `Files` only targets
that resolve to regular files, `None` removes nothing, `All` may remove
either kind. -/
def removalOk : Overwrite → Option Node → Prop
  | Overwrite.All, _ => True
  | Overwrite.Dirs, k => ∃ es, k = some (Node.dir es)
  | Overwrite.Files, k => k = some Node.file
  | Overwrite.None, _ => False

/-- Loop state reached by seeding the traversal of `c8Fs`. -/
def c8St : St := ⟨c8Fs, [["s", "a"]], []⟩

/-- Prefix order on paths. -/
def isPre (a b : FPath) : Prop := ∃ t, a ++ t = b


/-- A name that is not one of the three keep-marker names. -/
def goodName (k : String) : Prop :=
  k ≠ ".keep" ∧ k ≠ ".keep_files" ∧ k ≠ ".keep_dirs"

/-- Trees containing no entry named like a keep marker, anywhere. -/
inductive MarkerFree : Node → Prop where
  | file : MarkerFree Node.file
  | symlink : ∀ t, MarkerFree (Node.symlink t)
  | dir : ∀ es, (∀ k v, findEntry es k = some v → goodName k) →
      (∀ k v, findEntry es k = some v → MarkerFree v) →
      MarkerFree (Node.dir es)

/-- Decidable (fuelled) check for `MarkerFree`; any depth at least the height
of the tree is exact. -/
def markerFreeN : Nat → Node → Bool
  | 0, _ => false
  | Nat.succ d, Node.dir es =>
    es.all (fun e =>
      (e.1 != ".keep" && e.1 != ".keep_files" && e.1 != ".keep_dirs") &&
        markerFreeN d e.2)
  | Nat.succ _, _ => true


/-- Filesystem used to witness the amended coverage theorem: no markers,
disjoint roots `/s` and `/t`, a nested source tree. -/
def c6Fs : Node := Node.dir
  [ ("s", Node.dir [("a", Node.file), ("d", Node.dir [("x", Node.file)])])
  , ("t", Node.dir [("a", Node.file)]) ]

/-- Invariant of the marker-free `All` run, parameterized by the names
`done` already processed: the source subtree is untouched, the filesystem
stays marker-free, and the target directory's entry for each processed name
is a symlink to the corresponding source child while unprocessed names keep
their original entries. -/
def TInv (fs0 : Node) (source target : FPath) (tes : List (String × Node))
    (fsk : Node) (done : List String) : Prop :=
  (∀ r, getNode fsk (source ++ r) = getNode fs0 (source ++ r)) ∧
  MarkerFree fsk ∧
  ∃ tesk, getNode fsk target = some (Node.dir tesk) ∧
    (∀ n, n ∈ done → findEntry tesk n = some (Node.symlink (source ++ [n]))) ∧
    (∀ n, n ∉ done → findEntry tesk n = findEntry tes n)

/-- Trees containing no symbolic link anywhere. -/
inductive SymlinkFree : Node → Prop where
  | file : SymlinkFree Node.file
  | dir : ∀ es, (∀ k v, findEntry es k = some v → SymlinkFree v) →
      SymlinkFree (Node.dir es)

/-- Decidable (fuelled) check for `SymlinkFree`. -/
def symlinkFreeN : Nat → Node → Bool
  | 0, _ => false
  | Nat.succ _, Node.file => true
  | Nat.succ _, Node.symlink _ => false
  | Nat.succ d, Node.dir es => es.all (fun e => symlinkFreeN d e.2)

/-- Key uniqueness of one entry list. -/
def nodupKeys : List (String × Node) → Bool
  | [] => true
  | (n, _) :: tl => tl.all (fun e => e.1 != n) && nodupKeys tl

/-- Trees all of whose directories have pairwise distinct entry names. -/
inductive NodupNames : Node → Prop where
  | file : NodupNames Node.file
  | symlink : ∀ t, NodupNames (Node.symlink t)
  | dir : ∀ es, List.Pairwise (fun e1 e2 => e1.1 ≠ e2.1) es →
      (∀ k v, findEntry es k = some v → NodupNames v) →
      NodupNames (Node.dir es)

/-- Decidable (fuelled) check for `NodupNames`. -/
def nodupN : Nat → Node → Bool
  | 0, _ => false
  | Nat.succ _, Node.file => true
  | Nat.succ _, Node.symlink _ => true
  | Nat.succ d, Node.dir es => nodupKeys es && es.all (fun e => nodupN d e.2)

mutual

/-- Size of a tree, used as a termination measure. -/
def nsize (n : Node) : Nat :=
  match n with
  | Node.file => 1
  | Node.symlink _ => 1
  | Node.dir es => 1 + esize es
termination_by sizeOf n

/-- Size of an entry list. -/
def esize (es : List (String × Node)) : Nat :=
  match es with
  | [] => 0
  | (_, v) :: tl => nsize v + 1 + esize tl
termination_by sizeOf es

end

/-- Weight of a pending entry: the size of its subtree in the initial
filesystem. -/
def weight (fs0 : Node) (p : FPath) : Nat :=
  match getNode fs0 p with
  | some m => nsize m
  | none => 0

/-- Traversal measure: total weight of the pending entries. -/
def measureOf (fs0 : Node) (stack : List FPath) : Nat :=
  (stack.map (weight fs0)).sum

/-- Paths are incomparable when neither is a prefix of the other. -/
def incomp (p q : FPath) : Prop := ¬ isPre p q ∧ ¬ isPre q p

/-- Invariant of any-policy runs over a symlink-free filesystem with
disjoint canonical source and target roots: every pending entry is a proper
source descendant alive in the initial tree, the source subtree is
untouched, the target root stays a directory, pending entries are pairwise
incomparable, and every symlink of the current tree is incomparable with the
mirror of every pending entry. -/
def Inv8 (fs0 : Node) (source target : FPath) (fsk : Node)
    (stack : List FPath) : Prop :=
  (∀ p ∈ stack, ∃ rel, rel ≠ [] ∧ p = source ++ rel ∧
      (getNode fs0 (source ++ rel)).isSome = true) ∧
  (∀ r, getNode fsk (source ++ r) = getNode fs0 (source ++ r)) ∧
  (∃ tesk, getNode fsk target = some (Node.dir tesk)) ∧
  List.Pairwise incomp stack ∧
  (∀ q l, getNode fsk q = some (Node.symlink l) →
    ∀ p ∈ stack, ∀ rel, p = source ++ rel → incomp q (target ++ rel))

/-! Helper lemmas. -/

/-- A true `isDirPath` means the path resolves to a directory. -/
theorem isDir_stat {fs : Node} {fuel : Nat} {p : FPath}
    (h : isDirPath fs fuel p = true) :
    ∃ es, statNode fs fuel p = some (Node.dir es) := by
  rcases hs : statNode fs fuel p with _ | nd
  · simp [isDirPath, hs] at h
  · cases nd with
    | file => simp [isDirPath, hs] at h
    | symlink t => simp [isDirPath, hs] at h
    | dir es => exact ⟨es, rfl⟩

/-- A true `isFilePath` means the path resolves to a regular file. -/
theorem isFile_stat {fs : Node} {fuel : Nat} {p : FPath}
    (h : isFilePath fs fuel p = true) :
    statNode fs fuel p = some Node.file := by
  rcases hs : statNode fs fuel p with _ | nd
  · simp [isFilePath, hs] at h
  · cases nd with
    | file => rfl
    | symlink t => simp [isFilePath, hs] at h
    | dir es => simp [isFilePath, hs] at h

/-- Whenever the decision table selects removal, the removed target's
resolved kind conforms to the policy's scope. -/
theorem decide_action_remove {fs : Node} {fuel : Nat} {ow : Overwrite}
    {sp tp : FPath} (h : decide_action fs fuel ow sp tp = Action.removeThenLink) :
    removalOk ow (statNode fs fuel tp) := by
  cases ow with
  | All => trivial
  | Dirs =>
    simp only [decide_action] at h
    by_cases hex : pathExists fs fuel tp = true
    · rw [if_pos hex] at h
      by_cases hdir : (!isDirPath fs fuel tp) = true
      · rw [if_pos hdir] at h
        exact absurd h (by simp)
      · rw [if_neg hdir] at h
        by_cases hk : keep_path fs fuel tp [".keep", ".keep_dirs"] = true
        · rw [if_pos hk] at h
          exact absurd h (by simp)
        · rw [if_neg hk] at h
          have hdir' : isDirPath fs fuel tp = true := by
            revert hdir
            cases isDirPath fs fuel tp <;> simp
          rcases isDir_stat hdir' with ⟨es, hes⟩
          exact ⟨es, hes⟩
    · rw [if_neg hex] at h
      exact absurd h (by simp)
  | Files =>
    simp only [decide_action] at h
    by_cases hex : pathExists fs fuel tp = true
    · rw [if_pos hex] at h
      by_cases hfile : (!isFilePath fs fuel tp) = true
      · rw [if_pos hfile] at h
        exact absurd h (by simp)
      · rw [if_neg hfile] at h
        by_cases hk : keep_path fs fuel tp [".keep", ".keep_files"] = true
        · rw [if_pos hk] at h
          exact absurd h (by simp)
        · rw [if_neg hk] at h
          have hfile' : isFilePath fs fuel tp = true := by
            revert hfile
            cases isFilePath fs fuel tp <;> simp
          exact isFile_stat hfile'
    · rw [if_neg hex] at h
      exact absurd h (by simp)
  | None =>
    simp only [decide_action] at h
    by_cases hex : pathExists fs fuel tp = true
    · rw [if_pos hex] at h
      exact absurd h (by simp)
    · rw [if_neg hex] at h
      exact absurd h (by simp)

/-- One loop iteration only extends the removal log with entries whose
recorded kind conforms to the policy's scope. -/
theorem loopStep_log {source target : FPath} {ow : Overwrite} {fuel : Nat}
    {s s' : St}
    (h : loopStep source target ow fuel s = StepRes.done s' ∨
         loopStep source target ow fuel s = StepRes.fail s' ∨
         loopStep source target ow fuel s = StepRes.next s') :
    ∀ e ∈ s'.log, e ∈ s.log ∨ removalOk ow e.2 := by
  intro e he
  obtain ⟨sfs, sstack, slog⟩ := s
  cases sstack with
  | nil =>
    simp only [loopStep] at h
    rcases h with h | h | h <;> cases h <;> exact Or.inl he
  | cons source_path rest =>
    rcases hstrip : strip_base source source_path with _ | relp
    · simp only [loopStep, hstrip] at h
      rcases h with h | h | h <;> cases h <;> exact Or.inl he
    · rcases hda : decide_action sfs fuel ow source_path (target ++ relp)
        with _ | _ | _ | _ | _
      · simp only [loopStep, hstrip, hda] at h
        rcases h with h | h | h <;> cases h <;> exact Or.inl he
      · rcases hgd : go_deeper sfs fuel rest source_path with _ | st <;>
          simp only [loopStep, hstrip, hda, hgd] at h <;>
          rcases h with h | h | h <;> cases h <;> exact Or.inl he
      · simp only [loopStep, hstrip, hda] at h
        by_cases hsd : isDirPath sfs fuel source_path = true
        · rw [if_pos hsd] at h
          rcases hgd : go_deeper sfs fuel rest source_path with _ | st <;>
            simp only [hgd] at h <;>
            rcases h with h | h | h <;> cases h <;> exact Or.inl he
        · rw [if_neg hsd] at h
          rcases h with h | h | h <;> cases h <;> exact Or.inl he
      · rcases hrm : remove_path sfs fuel (target ++ relp) with _ | fs'
        · simp only [loopStep, hstrip, hda, hrm] at h
          rcases h with h | h | h <;> cases h <;> exact Or.inl he
        · rcases hcs : createSymlink fs' fuel source_path (target ++ relp)
            with _ | fs'' <;>
            simp only [loopStep, hstrip, hda, hrm, hcs] at h <;>
            rcases h with h | h | h <;> cases h <;>
            rcases List.mem_cons.mp he with he | he
          · exact Or.inr (by rw [he]; exact decide_action_remove hda)
          · exact Or.inl he
          · exact Or.inr (by rw [he]; exact decide_action_remove hda)
          · exact Or.inl he
      · rcases hcs : createSymlink sfs fuel source_path (target ++ relp)
          with _ | fs' <;>
          simp only [loopStep, hstrip, hda, hcs] at h <;>
          rcases h with h | h | h <;> cases h <;> exact Or.inl he

/-- Over any number of iterations, every entry added to the removal log
conforms to the policy's scope. -/
theorem runLoop_log {source target : FPath} {ow : Overwrite} {fuel : Nat} :
    ∀ (steps : Nat) (s : St) (e : FPath × Option Node),
      e ∈ (resSt (runLoop source target ow fuel steps s)).log →
      e ∈ s.log ∨ removalOk ow e.2 := by
  intro steps
  induction steps with
  | zero => intro s e he; exact Or.inl he
  | succ n ih =>
    intro s e he
    unfold runLoop at he
    rcases hstep : loopStep source target ow fuel s with s' | s' | s' <;>
      rw [hstep] at he
    · exact loopStep_log (Or.inl hstep) e he
    · exact loopStep_log (Or.inr (Or.inl hstep)) e he
    · rcases ih s' e he with h | h
      · exact loopStep_log (Or.inr (Or.inr hstep)) e h
      · exact Or.inr h

theorem isPre_refl (a : FPath) : isPre a a := ⟨[], by simp⟩

theorem isPre_append (a b : FPath) : isPre a (a ++ b) := ⟨b, rfl⟩

theorem isPre_trans {a b c : FPath} (h1 : isPre a b) (h2 : isPre b c) :
    isPre a c := by
  rcases h1 with ⟨t1, rfl⟩
  rcases h2 with ⟨t2, rfl⟩
  exact ⟨t1 ++ t2, by simp⟩

/-- Core of prefix comparability, by induction on the first path. -/
theorem append_eq_append_comparable :
    ∀ (a b t1 t2 : FPath), b ++ t2 = a ++ t1 → isPre a b ∨ isPre b a := by
  intro a
  induction a with
  | nil =>
    intro b t1 t2 _
    exact Or.inl ⟨b, rfl⟩
  | cons x xs ih =>
    intro b t1 t2 h
    cases b with
    | nil => exact Or.inr ⟨x :: xs, rfl⟩
    | cons y ys =>
      rcases List.cons_eq_cons.mp h with ⟨rfl, h'⟩
      rcases ih ys t1 t2 h' with ⟨t, ht⟩ | ⟨t, ht⟩
      · exact Or.inl ⟨t, by rw [List.cons_append, ht]⟩
      · exact Or.inr ⟨t, by rw [List.cons_append, ht]⟩

/-- Two prefixes of a common path are comparable. -/
theorem isPre_comparable {a b c : FPath} (h1 : isPre a c) (h2 : isPre b c) :
    isPre a b ∨ isPre b a := by
  rcases h1 with ⟨t1, rfl⟩
  rcases h2 with ⟨t2, h⟩
  exact append_eq_append_comparable a b t1 t2 h

theorem isPre_append_left_iff {p a b : FPath} :
    isPre (p ++ a) (p ++ b) ↔ isPre a b := by
  constructor
  · rintro ⟨t, ht⟩
    exact ⟨t, by
      have := ht
      rw [List.append_assoc] at this
      exact List.append_cancel_left this⟩
  · rintro ⟨t, rfl⟩
    exact ⟨t, by simp⟩

/-- A strictly longer extension is never a prefix of the base. -/
theorem not_isPre_concat {a : FPath} {c : String} : ¬ isPre (a ++ [c]) a := by
  rintro ⟨t, ht⟩
  have := congrArg List.length ht
  simp at this

/-- Lookup decomposes along path concatenation. -/
theorem getNode_append (fs : Node) (a b : FPath) :
    getNode fs (a ++ b) = (getNode fs a).bind (fun m => getNode m b) := by
  induction a generalizing fs with
  | nil => simp [getNode]
  | cons c rest ih =>
    cases fs with
    | file => simp [getNode]
    | symlink t => simp [getNode]
    | dir es =>
      simp only [List.cons_append, getNode]
      rcases findEntry es c with _ | child
      · simp
      · exact ih child

/-- Any proper prefix of a resolvable path points at a directory. -/
theorem getNode_pre_dir {fs : Node} {a b : FPath} {m : Node}
    (h : getNode fs (a ++ b) = some m) (hb : b ≠ []) :
    ∃ es, getNode fs a = some (Node.dir es) := by
  rw [getNode_append] at h
  rcases ha : getNode fs a with _ | ma
  · rw [ha] at h
    simp at h
  · rw [ha] at h
    simp only [Option.some_bind] at h
    cases ma with
    | file =>
      cases b with
      | nil => exact absurd rfl hb
      | cons x xs => simp [getNode] at h
    | symlink t =>
      cases b with
      | nil => exact absurd rfl hb
      | cons x xs => simp [getNode] at h
    | dir es => exact ⟨es, rfl⟩

/-- Walking a chain of plain directories descends without consuming fuel. -/
theorem walk_append (fs : Node) :
    ∀ (q acc r : FPath),
      (∀ a t, a ++ t = q → ∃ es, getNode fs (acc ++ a) = some (Node.dir es)) →
      walk fs acc (q ++ r) = walk fs (acc ++ q) r := by
  intro q
  induction q with
  | nil => intro acc r _; simp
  | cons c q' ih =>
    intro acc r hplain
    rcases hplain [] (c :: q') (by simp) with ⟨es, hes⟩
    rw [List.append_nil] at hes
    rcases hplain [c] q' rfl with ⟨es', hes'⟩
    have hfe : findEntry es c = some (Node.dir es') := by
      have h2 : getNode fs (acc ++ [c]) = (getNode fs acc).bind
          (fun m => getNode m [c]) := getNode_append fs acc [c]
      rw [hes'] at h2
      rw [hes] at h2
      simp only [Option.some_bind] at h2
      simp only [getNode] at h2
      rcases hfe0 : findEntry es c with _ | child
      · rw [hfe0] at h2
        simp at h2
      · rw [hfe0] at h2
        simp only [getNode] at h2
        exact h2.symm
    have hstep : walk fs acc ((c :: q') ++ r) = walk fs (acc ++ [c]) (q' ++ r) := by
      simp only [List.cons_append, walk, hes, hfe, List.append_eq]
    calc walk fs acc ((c :: q') ++ r)
        = walk fs (acc ++ [c]) (q' ++ r) := hstep
      _ = walk fs ((acc ++ [c]) ++ q') r := ih (acc ++ [c]) r (fun a t hat => by
          rcases hplain (c :: a) t (by rw [← hat]; rfl) with ⟨es2, hes2⟩
          refine ⟨es2, ?_⟩
          rw [List.append_assoc]
          exact hes2)
      _ = walk fs (acc ++ (c :: q')) r := by
          rw [List.append_assoc]
          rfl

/-- Resolution of a path whose node is reachable structurally as a directory
is the identity: canonical directory paths resolve to themselves. -/
theorem resolve_of_getNode {fs : Node} {q : FPath} {es : List (String × Node)}
    (h : getNode fs q = some (Node.dir es)) :
    ∀ fuel, resolveFrom fs fuel q = some q := by
  intro fuel
  have hplain : ∀ a t, a ++ t = q →
      ∃ es', getNode fs ([] ++ a) = some (Node.dir es') := by
    intro a t hat
    cases t with
    | nil =>
      rw [List.append_nil] at hat
      subst hat
      exact ⟨es, by simpa using h⟩
    | cons x xs =>
      rw [← hat] at h
      rcases getNode_pre_dir h (by simp) with ⟨es', hes'⟩
      exact ⟨es', by simpa using hes'⟩
  have hw : walk fs [] (q ++ []) = walk fs ([] ++ q) [] :=
    walk_append fs q [] [] hplain
  simp only [List.append_nil, List.nil_append] at hw
  have hw2 : walk fs [] q = WalkRes.res (some q) := by rw [hw]; rfl
  cases fuel with
  | zero => simp [resolveFrom, hw2]
  | succ n => simp [resolveFrom, hw2]

/-- The resolved node of a canonical directory path. -/
theorem statNode_of_getNode_dir {fs : Node} {q : FPath}
    {es : List (String × Node)} (h : getNode fs q = some (Node.dir es))
    (fuel : Nat) : statNode fs fuel q = some (Node.dir es) := by
  unfold statNode
  rw [resolve_of_getNode h fuel]
  exact h

/-- Stripping a prefix from its own extension yields the extension. -/
theorem strip_base_append (a b : FPath) : strip_base a (a ++ b) = some b := by
  induction a with
  | nil => rfl
  | cons c rest ih => simpa [strip_base] using ih

/-- Entries found by `findEntry` are members of the entry list. -/
theorem findEntry_mem : ∀ {es : List (String × Node)} {c : String} {v : Node},
    findEntry es c = some v → (c, v) ∈ es := by
  intro es
  induction es with
  | nil => intro c v h; simp [findEntry] at h
  | cons e tl ih =>
    intro c v h
    obtain ⟨n, w⟩ := e
    by_cases hn : n = c
    · subst hn
      simp [findEntry] at h
      subst h
      exact List.mem_cons_self _ _
    · simp only [findEntry, if_neg hn] at h
      exact List.mem_cons_of_mem _ (ih h)

/-- Members of the entry list are found (by name) by `findEntry`. -/
theorem mem_findEntry : ∀ {es : List (String × Node)} {c : String} {v : Node},
    (c, v) ∈ es → ∃ v', findEntry es c = some v' := by
  intro es
  induction es with
  | nil => intro c v h; simp at h
  | cons e tl ih =>
    intro c v h
    obtain ⟨n, w⟩ := e
    by_cases hn : n = c
    · exact ⟨w, by simp [findEntry, hn]⟩
    · rcases List.mem_cons.mp h with h | h
      · injection h with h1 h2
        exact absurd h1.symm hn
      · rcases ih h with ⟨v', hv'⟩
        exact ⟨v', by simp [findEntry, hn, hv']⟩

theorem findEntry_updateFirst_self (c : String) (g : Node → Node) :
    ∀ es : List (String × Node),
      findEntry (updateFirst c g es) c = (findEntry es c).map g := by
  intro es
  induction es with
  | nil => rfl
  | cons e tl ih =>
    obtain ⟨n, w⟩ := e
    by_cases hn : n = c
    · simp [updateFirst, findEntry, hn]
    · simp [updateFirst, findEntry, hn, ih]

theorem findEntry_updateFirst_ne (c d : String) (g : Node → Node)
    (hdc : d ≠ c) : ∀ es : List (String × Node),
      findEntry (updateFirst c g es) d = findEntry es d := by
  intro es
  induction es with
  | nil => rfl
  | cons e tl ih =>
    obtain ⟨n, w⟩ := e
    by_cases hn : n = c
    · subst hn
      simp [updateFirst, findEntry, Ne.symm hdc]
    · by_cases hd : n = d
      · simp [updateFirst, findEntry, hn, hd, hdc]
      · simp [updateFirst, findEntry, hn, hd, ih]

theorem findEntry_delEntry_self (c : String) :
    ∀ es : List (String × Node), findEntry (delEntry es c) c = none := by
  intro es
  induction es with
  | nil => rfl
  | cons e tl ih =>
    obtain ⟨n, w⟩ := e
    by_cases hn : n = c
    · simp only [delEntry, List.filter_cons]
      rw [if_neg (by simp [hn])]
      simpa [delEntry] using ih
    · simp only [delEntry, List.filter_cons]
      rw [if_pos (by simp [hn])]
      simp only [findEntry, if_neg hn]
      simpa [delEntry] using ih

theorem findEntry_delEntry_ne (c d : String) (hdc : d ≠ c) :
    ∀ es : List (String × Node), findEntry (delEntry es c) d = findEntry es d := by
  intro es
  induction es with
  | nil => rfl
  | cons e tl ih =>
    obtain ⟨n, w⟩ := e
    by_cases hn : n = c
    · simp only [delEntry, List.filter_cons]
      rw [if_neg (by simp [hn])]
      have hnd : n ≠ d := by
        rw [hn]
        exact fun h => hdc h.symm
      simp only [findEntry, if_neg hnd]
      simpa [delEntry] using ih
    · simp only [delEntry, List.filter_cons]
      rw [if_pos (by simp [hn])]
      by_cases hd : n = d
      · simp [findEntry, hd]
      · simp only [findEntry, if_neg hd]
        simpa [delEntry] using ih

theorem findEntry_append (d : String) :
    ∀ es fs : List (String × Node),
      findEntry (es ++ fs) d =
        (match findEntry es d with
         | some v => some v
         | none => findEntry fs d) := by
  intro es fs
  induction es with
  | nil => rfl
  | cons e tl ih =>
    obtain ⟨n, w⟩ := e
    by_cases hn : n = d
    · simp [findEntry, hn]
    · simp [findEntry, hn, ih]

/-- Updating at `t` rewrites the entry list of the directory at `t`. -/
theorem getNode_updateAt_self
    (f : List (String × Node) → List (String × Node)) :
    ∀ (t : FPath) (fs : Node) (es : List (String × Node)),
      getNode fs t = some (Node.dir es) →
      getNode (updateAt f t fs) t = some (Node.dir (f es)) := by
  intro t
  induction t with
  | nil =>
    intro fs es h
    simp only [getNode] at h
    rcases Option.some.inj h with rfl
    rfl
  | cons c rest ih =>
    intro fs es h
    cases fs with
    | file => simp [getNode] at h
    | symlink t' => simp [getNode] at h
    | dir es0 =>
      simp only [getNode] at h
      rcases hfe : findEntry es0 c with _ | ch
      · rw [hfe] at h
        simp at h
      · rw [hfe] at h
        simp only [updateAt, getNode]
        rw [findEntry_updateFirst_self]
        rw [hfe]
        exact ih ch es h

/-- Updating at `t` leaves every path that neither extends `t` nor is
extended by `t` untouched. -/
theorem getNode_updateAt_off
    (f : List (String × Node) → List (String × Node)) :
    ∀ (t q : FPath) (fs : Node), ¬ isPre t q → ¬ isPre q t →
      getNode (updateAt f t fs) q = getNode fs q := by
  intro t
  induction t with
  | nil => intro q fs h1 _; exact absurd ⟨q, rfl⟩ h1
  | cons c rest ih =>
    intro q fs h1 h2
    cases q with
    | nil => exact absurd ⟨c :: rest, rfl⟩ h2
    | cons d qrest =>
      cases fs with
      | file => rfl
      | symlink t' => rfl
      | dir es0 =>
        simp only [updateAt, getNode]
        by_cases hdc : d = c
        · subst hdc
          rw [findEntry_updateFirst_self]
          rcases hfe : findEntry es0 d with _ | ch
          · rfl
          · exact ih qrest ch
              (fun ⟨u, hu⟩ => h1 ⟨u, by rw [← hu]; rfl⟩)
              (fun ⟨u, hu⟩ => h2 ⟨u, by rw [← hu]; rfl⟩)
        · rw [findEntry_updateFirst_ne c d _ hdc]

/-- Updating somewhere below `q` keeps the directory at `q` a directory. -/
theorem getNode_updateAt_dir
    (f : List (String × Node) → List (String × Node)) :
    ∀ (q t : FPath) (fs : Node) (es : List (String × Node)), isPre q t →
      getNode fs q = some (Node.dir es) →
      ∃ es', getNode (updateAt f t fs) q = some (Node.dir es') := by
  intro q
  induction q with
  | nil =>
    intro t fs es _ h
    simp only [getNode] at h
    rcases Option.some.inj h with rfl
    cases t with
    | nil => exact ⟨f es, rfl⟩
    | cons c rest => exact ⟨updateFirst c (fun v => updateAt f rest v) es, rfl⟩
  | cons d qrest ih =>
    intro t fs es hpre h
    rcases hpre with ⟨u, hu⟩
    cases fs with
    | file => simp [getNode] at h
    | symlink t' => simp [getNode] at h
    | dir es0 =>
      simp only [getNode] at h
      rcases hfe : findEntry es0 d with _ | ch
      · rw [hfe] at h
        simp at h
      · rw [hfe] at h
        rw [← hu]
        simp only [updateAt, getNode]
        rw [findEntry_updateFirst_self]
        rw [hfe]
        exact ih (qrest ++ u) ch es ⟨u, rfl⟩ h

theorem markerFreeN_sound : ∀ (d : Nat) (fs : Node),
    markerFreeN d fs = true → MarkerFree fs := by
  intro d
  induction d with
  | zero => intro fs h; simp [markerFreeN] at h
  | succ d ih =>
    intro fs h
    cases fs with
    | file => exact MarkerFree.file
    | symlink t => exact MarkerFree.symlink t
    | dir es =>
      have hall : ∀ k v, findEntry es k = some v →
          goodName k ∧ markerFreeN d v = true := by
        intro k v hfind
        have hmem := findEntry_mem hfind
        simp only [markerFreeN] at h
        have h2 := List.all_eq_true.mp h _ hmem
        simp only [Bool.and_eq_true, bne_iff_ne] at h2
        exact ⟨⟨h2.1.1.1, h2.1.1.2, h2.1.2⟩, h2.2⟩
      exact MarkerFree.dir es (fun k v hf => (hall k v hf).1)
        (fun k v hf => ih v (hall k v hf).2)

/-- Marker freeness descends along structural lookup. -/
theorem MarkerFree_getNode {fs : Node} (hmf : MarkerFree fs) :
    ∀ (q : FPath) (m : Node), getNode fs q = some m → MarkerFree m := by
  intro q
  induction q generalizing fs with
  | nil =>
    intro m h
    simp only [getNode] at h
    rcases Option.some.inj h with rfl
    exact hmf
  | cons c rest ih =>
    intro m h
    cases fs with
    | file => simp [getNode] at h
    | symlink t => simp [getNode] at h
    | dir es =>
      simp only [getNode] at h
      rcases hfe : findEntry es c with _ | ch
      · rw [hfe] at h
        simp at h
      · rw [hfe] at h
        cases hmf with
        | dir _ hnames hsub => exact ih (hsub c ch hfe) m h

/-- Whenever a walk ends successfully, the final component of the walked path
was found as an entry of some directory of the tree. -/
theorem walk_found (fs : Node) :
    ∀ (p acc cp : FPath) (l : String),
      walk fs acc p = WalkRes.res (some cp) → p.getLast? = some l →
      ∃ q es v, getNode fs q = some (Node.dir es) ∧ findEntry es l = some v := by
  intro p
  induction p with
  | nil => intro acc cp l _ hl; simp at hl
  | cons c rest ih =>
    intro acc cp l hw hl
    rcases hg : getNode fs acc with _ | nd
    · simp [walk, hg] at hw
    · cases nd with
      | file => simp [walk, hg] at hw
      | symlink t => simp [walk, hg] at hw
      | dir es =>
        rcases hfe : findEntry es c with _ | ch
        · simp [walk, hg, hfe] at hw
        · cases ch with
          | file =>
            cases rest with
            | nil =>
              simp at hl
              exact ⟨acc, es, Node.file, hg, hl ▸ hfe⟩
            | cons r rs =>
              simp [walk, hg, hfe] at hw
          | symlink tgt => simp [walk, hg, hfe] at hw
          | dir es2 =>
            have hw' : walk fs (acc ++ [c]) rest = WalkRes.res (some cp) := by
              simpa [walk, hg, hfe] using hw
            cases rest with
            | nil =>
              simp at hl
              exact ⟨acc, es, Node.dir es2, hg, hl ▸ hfe⟩
            | cons r rs =>
              have hl' : (r :: rs).getLast? = some l := by
                rw [← hl]
                exact (List.getLast?_cons_cons ..).symm
              exact ih (acc ++ [c]) cp l hw' hl'

/-- Whenever a walk reaches a symlink, either the spliced path keeps the same
final component, or the final component itself was found as an entry. -/
theorem walk_splice (fs : Node) :
    ∀ (p acc q : FPath) (l : String),
      walk fs acc p = WalkRes.splice q → p.getLast? = some l →
      q.getLast? = some l ∨
      ∃ q' es v, getNode fs q' = some (Node.dir es) ∧ findEntry es l = some v := by
  intro p
  induction p with
  | nil => intro acc q l hw _; simp [walk] at hw
  | cons c rest ih =>
    intro acc q l hw hl
    rcases hg : getNode fs acc with _ | nd
    · simp [walk, hg] at hw
    · cases nd with
      | file => simp [walk, hg] at hw
      | symlink t => simp [walk, hg] at hw
      | dir es =>
        rcases hfe : findEntry es c with _ | ch
        · simp [walk, hg, hfe] at hw
        · cases ch with
          | file =>
            cases rest with
            | nil => simp [walk, hg, hfe] at hw
            | cons r rs => simp [walk, hg, hfe] at hw
          | symlink tgt =>
            have hq : q = tgt ++ rest := by
              have := hw
              simp [walk, hg, hfe] at this
              exact this.symm
            cases rest with
            | nil =>
              simp at hl
              exact Or.inr ⟨acc, es, Node.symlink tgt, hg, hl ▸ hfe⟩
            | cons r rs =>
              refine Or.inl ?_
              rw [hq]
              rw [List.getLast?_append]
              have h2 : (r :: rs).getLast? = some l := by
                rw [← hl]
                exact (List.getLast?_cons_cons ..).symm
              rw [h2]
              rfl
          | dir es2 =>
            have hw' : walk fs (acc ++ [c]) rest = WalkRes.splice q := by
              simpa [walk, hg, hfe] using hw
            cases rest with
            | nil => simp [walk] at hw'
            | cons r rs =>
              have hl' : (r :: rs).getLast? = some l := by
                rw [← hl]
                exact (List.getLast?_cons_cons ..).symm
              exact ih (acc ++ [c]) q l hw' hl'

/-- Whenever full resolution succeeds, the final component of the original
path was found as an entry of some directory of the tree. -/
theorem resolveFrom_last (fs : Node) :
    ∀ (fuel : Nat) (p cp : FPath) (l : String),
      resolveFrom fs fuel p = some cp → p.getLast? = some l →
      ∃ q es v, getNode fs q = some (Node.dir es) ∧ findEntry es l = some v := by
  intro fuel
  induction fuel with
  | zero =>
    intro p cp l hr hl
    unfold resolveFrom at hr
    rcases hw : walk fs [] p with r | q <;> rw [hw] at hr
    · cases r with
      | none => simp at hr
      | some cp' => exact walk_found fs p [] cp' l hw hl
    · simp at hr
  | succ n ih =>
    intro p cp l hr hl
    unfold resolveFrom at hr
    rcases hw : walk fs [] p with r | q <;> rw [hw] at hr
    · cases r with
      | none => simp at hr
      | some cp' => exact walk_found fs p [] cp' l hw hl
    · rcases walk_splice fs p [] q l hw hl with hql | hfound
      · exact ih q cp l hr hql
      · exact hfound

/-- In a marker-free tree no path ending in a marker name exists. -/
theorem marker_path_not_exists {fs : Node} (hmf : MarkerFree fs)
    {k : String} (hk : ¬ goodName k) (fuel : Nat) (x : FPath) :
    pathExists fs fuel (x ++ [k]) = false := by
  unfold pathExists statNode
  rcases hr : resolveFrom fs fuel (x ++ [k]) with _ | cp
  · rfl
  · exfalso
    rcases resolveFrom_last fs fuel (x ++ [k]) cp k hr
        (List.getLast?_concat ..) with ⟨q, es, v, hq, hfind⟩
    cases MarkerFree_getNode hmf q (Node.dir es) hq with
    | dir _ hnames hsub => exact hk (hnames k v hfind)

/-- In a marker-free tree, `keep_path` never protects anything, for any list
of marker names. -/
theorem keep_path_false {fs : Node} (hmf : MarkerFree fs) (fuel : Nat)
    (p : FPath) (ks : List String) (hks : ∀ k ∈ ks, ¬ goodName k) :
    keep_path fs fuel p ks = false := by
  unfold keep_path
  rw [Bool.or_eq_false_iff]
  constructor
  · rw [List.any_eq_false]
    intro k hkk
    rw [marker_path_not_exists hmf (hks k hkk) fuel p]
    simp
  · rw [List.any_eq_false]
    intro a _
    rw [Bool.not_eq_true]
    rw [List.any_eq_false]
    intro k hkk
    rw [show set_file_name a k = a.dropLast ++ [k] from rfl]
    rw [marker_path_not_exists hmf (hks k hkk) fuel a.dropLast]
    simp

/-- Membership in the ascending prefix chain is exactly being a prefix. -/
theorem mem_prefixesUp : ∀ (p a : FPath), a ∈ prefixesUp p ↔ ∃ t, a ++ t = p := by
  intro p
  induction p with
  | nil =>
    intro a
    simp only [prefixesUp, List.mem_singleton]
    constructor
    · rintro rfl
      exact ⟨[], rfl⟩
    · rintro ⟨t, ht⟩
      rcases List.append_eq_nil.mp ht with ⟨h1, _⟩
      exact h1
  | cons c rest ih =>
    intro a
    simp only [prefixesUp, List.mem_cons, List.mem_map]
    constructor
    · rintro (rfl | ⟨q, hq, rfl⟩)
      · exact ⟨c :: rest, rfl⟩
      · rcases (ih q).mp hq with ⟨t, ht⟩
        exact ⟨t, by simp [ht]⟩
    · rintro ⟨t, ht⟩
      cases a with
      | nil => exact Or.inl rfl
      | cons a0 atl =>
        rcases List.cons_eq_cons.mp ht with ⟨rfl, htl⟩
        exact Or.inr ⟨atl, (ih atl).mpr ⟨t, htl⟩, rfl⟩

/-- Membership in `ancestors p` is exactly being a prefix of `p`. -/
theorem mem_ancestors {p a : FPath} : a ∈ ancestors p ↔ ∃ t, a ++ t = p := by
  rw [ancestors, List.mem_reverse]
  exact mem_prefixesUp p a

/-- Resolution outcome is fixed by a splice-free walk, whatever the fuel. -/
theorem resolveFrom_of_walk {fs : Node} {p : FPath} {r : Option FPath}
    (h : walk fs [] p = WalkRes.res r) :
    ∀ fuel, resolveFrom fs fuel p = r := by
  intro fuel
  cases fuel with
  | zero => simp [resolveFrom, h]
  | succ n => simp [resolveFrom, h]

/-- Every prefix of a structurally reachable directory path is a plain
directory. -/
theorem plain_prefixes {fs : Node} {q : FPath} {es : List (String × Node)}
    (h : getNode fs q = some (Node.dir es)) :
    ∀ a t, a ++ t = q → ∃ es', getNode fs ([] ++ a) = some (Node.dir es') := by
  intro a t hat
  cases t with
  | nil =>
    rw [List.append_nil] at hat
    subst hat
    exact ⟨es, by simpa using h⟩
  | cons x xs =>
    rw [← hat] at h
    rcases getNode_pre_dir h (by simp) with ⟨es', hes'⟩
    exact ⟨es', by simpa using hes'⟩

/-- Walking to a child of a canonical directory path skips straight to the
final entry lookup. -/
theorem walk_child {fs : Node} {q : FPath} {es : List (String × Node)}
    (h : getNode fs q = some (Node.dir es)) (n : String) :
    walk fs [] (q ++ [n]) = walk fs q [n] := by
  have := walk_append fs q [] [n] (plain_prefixes h)
  simpa using this

/-- Appending a differently-named entry does not change a lookup. -/
theorem findEntry_append_single_ne {es : List (String × Node)} {m n : String}
    {v' : Node} (hmn : m ≠ n) :
    findEntry (es ++ [(n, v')]) m = findEntry es m := by
  rw [findEntry_append]
  rcases hfe : findEntry es m with _ | v
  · have hnm : n ≠ m := fun h => hmn h.symm
    simp [findEntry, hnm]
  · rfl

/-- Entries found after a deletion were already present. -/
theorem findEntry_delEntry_sub {es : List (String × Node)} {m k : String}
    {v : Node} (h : findEntry (delEntry es m) k = some v) :
    findEntry es k = some v := by
  by_cases hkm : k = m
  · rw [hkm, findEntry_delEntry_self] at h
    exact absurd h (by simp)
  · rw [findEntry_delEntry_ne m k hkm] at h
    exact h

/-- Marker freeness is preserved by updates whose entry-list transformer
preserves it. -/
theorem MarkerFree_updateAt {fs : Node} (hmf : MarkerFree fs)
    (f : List (String × Node) → List (String × Node))
    (hf : ∀ es, (∀ k v, findEntry es k = some v → goodName k) →
      (∀ k v, findEntry es k = some v → MarkerFree v) →
      (∀ k v, findEntry (f es) k = some v → goodName k ∧ MarkerFree v)) :
    ∀ t : FPath, MarkerFree (updateAt f t fs) := by
  intro t
  induction t generalizing fs with
  | nil =>
    cases hmf with
    | file => exact MarkerFree.file
    | symlink t' => exact MarkerFree.symlink t'
    | dir es hn hs =>
      exact MarkerFree.dir _ (fun k v hv => (hf es hn hs k v hv).1)
        (fun k v hv => (hf es hn hs k v hv).2)
  | cons c rest ih =>
    cases hmf with
    | file => exact MarkerFree.file
    | symlink t' => exact MarkerFree.symlink t'
    | dir es hn hs =>
      refine MarkerFree.dir _ ?_ ?_
      · intro k v hv
        by_cases hkc : k = c
        · subst hkc
          rw [findEntry_updateFirst_self] at hv
          rcases hch : findEntry es k with _ | ch
          · rw [hch] at hv
            simp at hv
          · exact hn k ch hch
        · rw [findEntry_updateFirst_ne c k _ hkc] at hv
          exact hn k v hv
      · intro k v hv
        by_cases hkc : k = c
        · subst hkc
          rw [findEntry_updateFirst_self] at hv
          rcases hch : findEntry es k with _ | ch
          · rw [hch] at hv
            simp at hv
          · rw [hch] at hv
            simp only [Option.map] at hv
            rcases Option.some.inj hv with rfl
            exact ih (hs k ch hch)
        · rw [findEntry_updateFirst_ne c k _ hkc] at hv
          exact hs k v hv

/-- Deleting an entry keeps the tree marker-free. -/
theorem MarkerFree_update_del {fs : Node} (hmf : MarkerFree fs) (m : String)
    (t : FPath) : MarkerFree (updateAt (fun l => delEntry l m) t fs) := by
  refine MarkerFree_updateAt hmf _ (fun es hn hs k v hv => ?_) t
  have := findEntry_delEntry_sub hv
  exact ⟨hn k v this, hs k v this⟩

/-- Appending a well-named symlink entry keeps the tree marker-free. -/
theorem MarkerFree_update_append {fs : Node} (hmf : MarkerFree fs)
    {m : String} (hm : goodName m) (s : FPath) (t : FPath) :
    MarkerFree (updateAt (fun l => l ++ [(m, Node.symlink s)]) t fs) := by
  refine MarkerFree_updateAt hmf _ (fun es hn hs k v hv => ?_) t
  rw [findEntry_append] at hv
  rcases hfe : findEntry es k with _ | v0
  · rw [hfe] at hv
    simp only [findEntry] at hv
    by_cases hkm : m = k
    · rw [if_pos hkm] at hv
      rcases Option.some.inj hv with rfl
      exact ⟨hkm ▸ hm, MarkerFree.symlink s⟩
    · rw [if_neg hkm] at hv
      simp [findEntry] at hv
  · rw [hfe] at hv
    rcases Option.some.inj hv with rfl
    exact ⟨hn k v0 hfe, hs k v0 hfe⟩

/-- Disjoint roots stay incomparable under extension of the source side. -/
theorem disjoint_off {source target r : FPath}
    (hst : ¬ isPre source target) (hts : ¬ isPre target source) :
    ¬ isPre target (source ++ r) ∧ ¬ isPre (source ++ r) target := by
  constructor
  · intro h
    rcases isPre_comparable h (isPre_append source r) with h1 | h1
    · exact hts h1
    · exact hst h1
  · intro h
    exact hst (isPre_trans (isPre_append source r) h)

theorem not_goodName_keep : ¬ goodName ".keep" := fun h => h.1 rfl

theorem not_goodName_keep_files : ¬ goodName ".keep_files" :=
  fun h => h.2.1 rfl

theorem not_goodName_keep_dirs : ¬ goodName ".keep_dirs" :=
  fun h => h.2.2 rfl

/-- The processed-name list of `TInv` only matters up to membership. -/
theorem TInv_congr {fs0 : Node} {source target : FPath}
    {tes : List (String × Node)} {fsk : Node} {d1 d2 : List String}
    (hmem : ∀ x, x ∈ d1 ↔ x ∈ d2)
    (h : TInv fs0 source target tes fsk d1) :
    TInv fs0 source target tes fsk d2 := by
  obtain ⟨hsrc, hmf, tesk, htgt, hdone, hrest⟩ := h
  exact ⟨hsrc, hmf, tesk, htgt,
    fun n hn => hdone n ((hmem n).mpr hn),
    fun n hn => hrest n (fun hx => hn ((hmem n).mp hx))⟩

/-- Characterization of the `All` run over a marker-free tree with disjoint
canonical source and target: every iteration replaces (or creates) the
target-directory entry named after the popped source child with a symlink to
that child, never recursing and touching nothing else. -/
theorem C6run (fs0 : Node) (source target : FPath)
    (ses tes : List (String × Node)) (F : Nat)
    (hs0 : getNode fs0 source = some (Node.dir ses))
    (hst : ¬ isPre source target) (hts : ¬ isPre target source) :
    ∀ (todo : List String) (steps : Nat) (fsk : Node) (done : List String)
      (log : List (FPath × Option Node)) (s' : St),
      TInv fs0 source target tes fsk done →
      (∀ m ∈ todo, ∃ v, findEntry ses m = some v) →
      runLoop source target Overwrite.All F steps
        ⟨fsk, todo.map (fun m => source ++ [m]), log⟩ = RunResult.ok s' →
      TInv fs0 source target tes s'.fs (todo ++ done) := by
  intro todo
  induction todo with
  | nil =>
    intro steps fsk done log s' hinv _ hrun
    cases steps with
    | zero => simp [runLoop] at hrun
    | succ k =>
      have hstep : loopStep source target Overwrite.All F
          ⟨fsk, ([] : List String).map (fun m => source ++ [m]), log⟩ =
          StepRes.done ⟨fsk, [], log⟩ := rfl
      simp only [runLoop, hstep] at hrun
      injection hrun with h
      subst h
      simpa using hinv
  | cons n todo' ih =>
    intro steps fsk done log s' hinv htodo hrun
    obtain ⟨hsrc, hmf, tesk, htgt, hdone, hrest⟩ := hinv
    cases steps with
    | zero => simp [runLoop] at hrun
    | succ k =>
      have hsrcN : getNode fsk source = some (Node.dir ses) := by
        have h1 := hsrc []
        simp only [List.append_nil] at h1
        rw [h1]
        exact hs0
      have hgoodn : goodName n := by
        rcases htodo n (List.mem_cons_self ..) with ⟨v, hv⟩
        have hmfs : MarkerFree (Node.dir ses) :=
          MarkerFree_getNode hmf source _ hsrcN
        cases hmfs with
        | dir _ hn _ => exact hn n v hv
      have hstrip : strip_base source (source ++ [n]) = some [n] :=
        strip_base_append source [n]
      have hoff : ∀ (r : FPath)
          (f : List (String × Node) → List (String × Node)) (fsx : Node),
          getNode (updateAt f target fsx) (source ++ r) =
            getNode fsx (source ++ r) := by
        intro r f fsx
        exact getNode_updateAt_off f target (source ++ r) fsx
          (disjoint_off hst hts).1 (disjoint_off hst hts).2
      rcases hfe : findEntry tesk n with _ | entry
      · -- the mirrored path does not exist: a symlink is created directly
        have hwres : walk fsk [] (target ++ [n]) = WalkRes.res none := by
          rw [walk_child htgt n]
          simp [walk, htgt, hfe]
        have hex : pathExists fsk F (target ++ [n]) = false := by
          simp [pathExists, statNode, resolveFrom_of_walk hwres F]
        have hda : decide_action fsk F Overwrite.All (source ++ [n])
            (target ++ [n]) = Action.link := by
          simp [decide_action, hex]
        have hcs : createSymlink fsk F (source ++ [n]) (target ++ [n]) =
            some (updateAt
              (fun l => l ++ [(n, Node.symlink (source ++ [n]))])
              target fsk) := by
          unfold createSymlink
          simp only [List.getLast?_concat, List.dropLast_concat,
            resolve_of_getNode htgt F, htgt, hfe]
        have hstep : loopStep source target Overwrite.All F
            ⟨fsk, (n :: todo').map (fun m => source ++ [m]), log⟩ =
            StepRes.next ⟨updateAt
              (fun l => l ++ [(n, Node.symlink (source ++ [n]))]) target fsk,
              todo'.map (fun m => source ++ [m]), log⟩ := by
          simp only [List.map_cons, loopStep, hstrip, hda, hcs]
        simp only [runLoop, hstep] at hrun
        have hinv' : TInv fs0 source target tes
            (updateAt (fun l => l ++ [(n, Node.symlink (source ++ [n]))])
              target fsk) (n :: done) := by
          refine ⟨fun r => (hoff r _ fsk).trans (hsrc r),
            MarkerFree_update_append hmf hgoodn (source ++ [n]) target,
            tesk ++ [(n, Node.symlink (source ++ [n]))],
            getNode_updateAt_self _ target fsk tesk htgt, ?_, ?_⟩
          · intro m hm
            by_cases hmn : m = n
            · subst hmn
              rw [findEntry_append, hfe]
              simp [findEntry]
            · rcases List.mem_cons.mp hm with h | hm'
              · exact absurd h hmn
              · rw [findEntry_append_single_ne hmn]
                exact hdone m hm'
          · intro m hm
            have hmn : m ≠ n := fun h => hm (h ▸ List.mem_cons_self ..)
            have hm' : m ∉ done := fun h => hm (List.mem_cons_of_mem _ h)
            rw [findEntry_append_single_ne hmn]
            exact hrest m hm'
        refine TInv_congr (fun x => ?_)
          (ih k _ (n :: done) log s' hinv'
            (fun m hm => htodo m (List.mem_cons_of_mem _ hm)) hrun)
        simp only [List.mem_append, List.mem_cons]
        tauto
      · -- an entry exists at the mirrored path
        cases hex : pathExists fsk F (target ++ [n]) with
        | false =>
          -- a dangling entry: creation fails and the run aborts
          have hda : decide_action fsk F Overwrite.All (source ++ [n])
              (target ++ [n]) = Action.link := by
            simp [decide_action, hex]
          have hcs : createSymlink fsk F (source ++ [n]) (target ++ [n]) =
              none := by
            unfold createSymlink
            simp only [List.getLast?_concat, List.dropLast_concat,
              resolve_of_getNode htgt F, htgt, hfe]
          have hstep : loopStep source target Overwrite.All F
              ⟨fsk, (n :: todo').map (fun m => source ++ [m]), log⟩ =
              StepRes.fail
                ⟨fsk, (n :: todo').map (fun m => source ++ [m]), log⟩ := by
            simp only [List.map_cons, loopStep, hstrip, hda, hcs]
          simp only [runLoop, hstep] at hrun
          exact absurd hrun (by simp)
        | true =>
          -- existing target: removed (whatever its kind) and re-linked
          have hk1 : keep_path fsk F (target ++ [n])
              [".keep", ".keep_files"] = false := by
            refine keep_path_false hmf F _ _ ?_
            intro x hx
            rcases List.mem_cons.mp hx with rfl | hx
            · exact not_goodName_keep
            · rcases List.mem_cons.mp hx with rfl | hx
              · exact not_goodName_keep_files
              · simp at hx
          have hk2 : keep_path fsk F (target ++ [n])
              [".keep", ".keep_dirs"] = false := by
            refine keep_path_false hmf F _ _ ?_
            intro x hx
            rcases List.mem_cons.mp hx with rfl | hx
            · exact not_goodName_keep
            · rcases List.mem_cons.mp hx with rfl | hx
              · exact not_goodName_keep_dirs
              · simp at hx
          have hda : decide_action fsk F Overwrite.All (source ++ [n])
              (target ++ [n]) = Action.removeThenLink := by
            simp [decide_action, hex, hk1, hk2]
          have hrm : remove_path fsk F (target ++ [n]) =
              some (updateAt (fun l => delEntry l n) target fsk) := by
            unfold remove_path
            rw [ite_self]
            unfold removeAtPath
            simp only [List.getLast?_concat, List.dropLast_concat,
              resolve_of_getNode htgt F, htgt, hfe]
          have htgtA : getNode
              (updateAt (fun l => delEntry l n) target fsk) target =
              some (Node.dir (delEntry tesk n)) :=
            getNode_updateAt_self _ target fsk tesk htgt
          have hcs : createSymlink
              (updateAt (fun l => delEntry l n) target fsk) F
              (source ++ [n]) (target ++ [n]) =
              some (updateAt
                (fun l => l ++ [(n, Node.symlink (source ++ [n]))]) target
                (updateAt (fun l => delEntry l n) target fsk)) := by
            unfold createSymlink
            simp only [List.getLast?_concat, List.dropLast_concat,
              resolve_of_getNode htgtA F, htgtA, findEntry_delEntry_self]
          have hstep : loopStep source target Overwrite.All F
              ⟨fsk, (n :: todo').map (fun m => source ++ [m]), log⟩ =
              StepRes.next ⟨updateAt
                (fun l => l ++ [(n, Node.symlink (source ++ [n]))]) target
                (updateAt (fun l => delEntry l n) target fsk),
                todo'.map (fun m => source ++ [m]),
                (target ++ [n], statNode fsk F (target ++ [n])) :: log⟩ := by
            simp only [List.map_cons, loopStep, hstrip, hda, hrm, hcs]
          simp only [runLoop, hstep] at hrun
          have hinv' : TInv fs0 source target tes
              (updateAt (fun l => l ++ [(n, Node.symlink (source ++ [n]))])
                target (updateAt (fun l => delEntry l n) target fsk))
              (n :: done) := by
            refine ⟨fun r => ((hoff r _ _).trans (hoff r _ fsk)).trans (hsrc r),
              MarkerFree_update_append (MarkerFree_update_del hmf n target)
                hgoodn (source ++ [n]) target,
              delEntry tesk n ++ [(n, Node.symlink (source ++ [n]))],
              getNode_updateAt_self _ target _ _ htgtA, ?_, ?_⟩
            · intro m hm
              by_cases hmn : m = n
              · subst hmn
                rw [findEntry_append, findEntry_delEntry_self]
                simp [findEntry]
              · rcases List.mem_cons.mp hm with h | hm'
                · exact absurd h hmn
                · rw [findEntry_append_single_ne hmn,
                    findEntry_delEntry_ne n m hmn]
                  exact hdone m hm'
            · intro m hm
              have hmn : m ≠ n := fun h => hm (h ▸ List.mem_cons_self ..)
              have hm' : m ∉ done := fun h => hm (List.mem_cons_of_mem _ h)
              rw [findEntry_append_single_ne hmn,
                findEntry_delEntry_ne n m hmn]
              exact hrest m hm'
          refine TInv_congr (fun x => ?_)
            (ih k _ (n :: done) _ s' hinv'
              (fun m hm => htodo m (List.mem_cons_of_mem _ hm)) hrun)
          simp only [List.mem_append, List.mem_cons]
          tauto

/-- A lookup ending at a child of a directory node is the entry lookup. -/
theorem findEntry_of_getNode_concat {fs : Node} {L : FPath} {b : String}
    {esL : List (String × Node)} {m : Node}
    (hL : getNode fs L = some (Node.dir esL))
    (h : getNode fs (L ++ [b]) = some m) : findEntry esL b = some m := by
  rw [getNode_append, hL] at h
  simp only [Option.some_bind] at h
  simp only [getNode] at h
  rcases hfe : findEntry esL b with _ | ch
  · rw [hfe] at h
    simp at h
  · rw [hfe] at h
    simp only [getNode] at h
    rw [h]

/-- The `lstat` of a canonical directory path is its directory node. -/
theorem lstat_of_getNode_dir {fs : Node} {q : FPath}
    {es : List (String × Node)} (h : getNode fs q = some (Node.dir es))
    (fuel : Nat) : lstatNode fs fuel q = some (Node.dir es) := by
  rcases List.eq_nil_or_concat q with rfl | ⟨L, b, rfl⟩
  · simp only [getNode] at h
    rcases Option.some.inj h with rfl
    rfl
  · rw [List.concat_eq_append] at h ⊢
    rcases getNode_pre_dir h (by simp) with ⟨esL, hesL⟩
    unfold lstatNode
    simp only [List.getLast?_concat, List.dropLast_concat,
      resolve_of_getNode hesL fuel, hesL]
    exact findEntry_of_getNode_concat hesL h

/-- A canonical directory path is not a symlink, so `resolve_symlink` leaves
it unchanged. -/
theorem resolve_symlink_of_dir {fs : Node} {q : FPath}
    {es : List (String × Node)} (h : getNode fs q = some (Node.dir es))
    (fuel : Nat) : resolve_symlink fs fuel q = some q := by
  unfold resolve_symlink
  have hsym : isSymlinkPath fs fuel q = false := by
    simp [isSymlinkPath, lstat_of_getNode_dir h fuel]
  rw [hsym]
  simp

/-! Claim theorems. -/

/-- C3 (counterexample): on the §8 fixture under `overwrite=Dirs`, the run
succeeds and a new symlink IS created at `target/keep/haha.yml`, inside the
`.keep`-protected directory — refuting the claim that the protected source
subdirectory is not recursed into and that no symlink appears inside
`target/keep`. -/
theorem C3_counterexample :
    runOk (runFix Overwrite.Dirs) = true ∧
    lstatNode (resFs (runFix Overwrite.Dirs)) 20 ["t", "keep", "haha.yml"] =
      some (Node.symlink ["s", "keep", "haha.yml"]) :=
  ⟨rfl, rfl⟩

/-- C3 (amended): on the §8 fixture under `overwrite=Dirs`, `target/keep`
stays a real directory and its pre-existing contents (`.keep`,
`do_not_overwrite.txt`) stay real files, but the run does recurse into
`source/keep` and creates `target/keep/haha.yml` as a fresh symlink;
`target/nested` is removed and replaced wholesale by a symlink to
`source/nested`; `target/ipsum.php` stays a real file. -/
theorem C3_theorem :
    runOk (runFix Overwrite.Dirs) = true ∧
    isSymlinkPath (resFs (runFix Overwrite.Dirs)) 20 ["t", "keep"] = false ∧
    isDirPath (resFs (runFix Overwrite.Dirs)) 20 ["t", "keep"] = true ∧
    lstatNode (resFs (runFix Overwrite.Dirs)) 20 ["t", "keep", ".keep"] =
      some Node.file ∧
    lstatNode (resFs (runFix Overwrite.Dirs)) 20
      ["t", "keep", "do_not_overwrite.txt"] = some Node.file ∧
    lstatNode (resFs (runFix Overwrite.Dirs)) 20 ["t", "keep", "haha.yml"] =
      some (Node.symlink ["s", "keep", "haha.yml"]) ∧
    lstatNode (resFs (runFix Overwrite.Dirs)) 20 ["t", "nested"] =
      some (Node.symlink ["s", "nested"]) ∧
    lstatNode (resFs (runFix Overwrite.Dirs)) 20 ["t", "ipsum.php"] =
      some Node.file :=
  ⟨rfl, rfl, rfl, rfl, rfl, rfl, rfl, rfl⟩

/-- C5 (counterexample): with `source = /s` holding `d/x` and an empty target,
a first `Files` run succeeds (linking `/t/d` wholesale).  The second run with
identical arguments also succeeds but does NOT reproduce the same state: it
traverses the created symlink `/t/d`, unlinks the source file `/s/d/x`
through it, and plants a self-referential symlink there. -/
theorem C5_counterexample :
    runOk c5Once = true ∧
    runOk c5Twice = true ∧
    lstatNode (resFs c5Once) 20 ["s", "d", "x"] = some Node.file ∧
    lstatNode (resFs c5Twice) 20 ["s", "d", "x"] =
      some (Node.symlink ["s", "d", "x"]) ∧
    resFs c5Twice ≠ resFs c5Once := by
  refine ⟨rfl, rfl, rfl, rfl, fun h => ?_⟩
  have h2 : (some (Node.symlink ["s", "d", "x"]) : Option Node) =
      some Node.file := by
    calc some (Node.symlink ["s", "d", "x"])
        = lstatNode (resFs c5Twice) 20 ["s", "d", "x"] := by rfl
      _ = lstatNode (resFs c5Once) 20 ["s", "d", "x"] := by rw [h]
      _ = some Node.file := by rfl
  simp at h2

/-- C5 (amended): on the §8 fixture, for each of the four policies, running
`generate_symlinks` twice in succession with the same arguments succeeds and
produces the same final filesystem state as running it once, up to the order
of directory entries (a second run may unlink an already-correct link and
re-create it, which re-appends the entry).  In general the property fails,
as `C5_counterexample` shows. -/
theorem C5_theorem :
    runTwiceEquiv Overwrite.All = true ∧
    runTwiceEquiv Overwrite.Dirs = true ∧
    runTwiceEquiv Overwrite.Files = true ∧
    runTwiceEquiv Overwrite.None = true :=
  ⟨rfl, rfl, rfl, rfl⟩

/-- C1 (counterexample): under policy `Dirs`, a pre-existing target path that
is a symlink (`/t/d`, a link to the directory `/r`) IS removed: the run
succeeds, logs the removal of `/t/d`, and leaves a different link there, so
the part of the claim stating that no symlink target is ever removed under
`Dirs` fails for a symlink whose referent is a directory. -/
theorem C1_counterexample :
    lstatNode c1Fs 20 ["t", "d"] = some (Node.symlink ["r"]) ∧
    runOk c1Run = true ∧
    resLog c1Run = [(["t", "d"], some (Node.dir []))] ∧
    lstatNode (resFs c1Run) 20 ["t", "d"] = some (Node.symlink ["s", "d"]) :=
  ⟨rfl, rfl, rfl, rfl⟩

/-- C2 (counterexample): the marker `/m/.keep` lies outside the target root
`/m/t`'s subtree (it sits next to an ancestor of the target root), no marker
exists anywhere inside the target root's subtree, and yet during a
`generate_symlinks` run under `All` the marker protects `/m/t/d`: `keep_path`
reports it protected, the run succeeds without any removal and leaves the
filesystem — in particular the real directory `/m/t/d` — untouched. -/
theorem C2_counterexample :
    keep_path c2Fs 20 ["m", "t", "d"] [".keep", ".keep_dirs"] = true ∧
    pathExists c2Fs 20 ["m", ".keep"] = true ∧
    pathExists c2Fs 20 ["m", "t", ".keep"] = false ∧
    pathExists c2Fs 20 ["m", "t", "d", ".keep"] = false ∧
    pathExists c2Fs 20 ["m", "t", "d", "x", ".keep"] = false ∧
    runOk c2Run = true ∧
    resLog c2Run = [] ∧
    resFs c2Run = c2Fs ∧
    isSymlinkPath (resFs c2Run) 20 ["m", "t", "d"] = false :=
  ⟨rfl, rfl, rfl, rfl, rfl, rfl, rfl, rfl, rfl⟩

/-- C1 (amended): over every run of `generate_symlinks` (finished or not),
every removal recorded in the log conforms to the policy's scope as the code
classifies targets (following symlinks): under `Dirs` only targets resolving
to directories are removed (a symlink whose referent is a directory may thus
be removed, though only the link itself is unlinked); under `Files` only
targets resolving to regular files; under `None` nothing is ever removed. -/
theorem C1_theorem (fs : Node) (source target : FPath) (ow : Overwrite)
    (fuel steps : Nat) (e : FPath × Option Node)
    (he : e ∈ resLog (generate_symlinks fs source target ow fuel steps)) :
    removalOk ow e.2 := by
  unfold resLog at he
  unfold generate_symlinks at he
  rcases hc1 : canonicalize fs fuel source with _ | src <;>
    simp only [hc1] at he
  · simp [resSt] at he
  · rcases hc2 : canonicalize fs fuel target with _ | tgt <;>
      simp only [hc2] at he
    · simp [resSt] at he
    · by_cases hv : (!isDirPath fs fuel src || !isDirPath fs fuel tgt) = true
      · rw [if_pos hv] at he
        simp [resSt] at he
      · rw [if_neg hv] at he
        rcases hr : resolve_symlink fs fuel src with _ | src' <;>
          simp only [hr] at he
        · simp [resSt] at he
        · rcases hg : go_deeper fs fuel [] src' with _ | st0 <;>
            simp only [hg] at he
          · simp [resSt] at he
          · rcases runLoop_log steps ⟨fs, st0, []⟩ e he with h | h
            · simp at h
            · exact h

/-- C1 (witness): the amended theorem applied to the concrete `Dirs` run over
`c1Fs`, whose log contains the removal of `/t/d`, recorded as a directory. -/
theorem C1_witness :
    removalOk Overwrite.Dirs (some (Node.dir ([] : List (String × Node)))) :=
  C1_theorem c1Fs ["s"] ["t"] Overwrite.Dirs 20 20
    (["t", "d"], some (Node.dir []))
    (List.Mem.head _)

/-- C2 (amended): `keep_path` protects a target path exactly when a marker
name exists directly inside it, or when ANY prefix of the path — the path
itself, every ancestor inside the target root, the target root, and every
ancestor above it up to the filesystem root — has a sibling entry (via
`set_file_name`) carrying a marker name.  The ancestor scan is NOT limited to
the target root's subtree: a marker lying outside it also protects, as
`C2_counterexample` shows. -/
theorem C2_theorem (fs : Node) (fuel : Nat) (p : FPath) (keep : List String) :
    keep_path fs fuel p keep = true ↔
      ((∃ k ∈ keep, pathExists fs fuel (p ++ [k]) = true) ∨
       (∃ a t, a ++ t = p ∧
         ∃ k ∈ keep, pathExists fs fuel (set_file_name a k) = true)) := by
  unfold keep_path
  simp only [Bool.or_eq_true, List.any_eq_true]
  constructor
  · rintro (⟨k, hk, hex⟩ | ⟨a, ha, k, hk, hex⟩)
    · exact Or.inl ⟨k, hk, hex⟩
    · rcases mem_ancestors.mp ha with ⟨t, ht⟩
      exact Or.inr ⟨a, t, ht, k, hk, hex⟩
  · rintro (⟨k, hk, hex⟩ | ⟨a, t, ht, k, hk, hex⟩)
    · exact Or.inl ⟨k, hk, hex⟩
    · exact Or.inr ⟨a, mem_ancestors.mpr ⟨t, ht⟩, k, hk, hex⟩

/-- C6 (counterexample): under `All`, with no marker file anywhere in the
target tree (the only marker is `/m/.keep`, outside the target root `/m/t`),
the run succeeds, the source path `/s/d/x` exists, and yet its mirrored path
`/m/t/d/x` holds no symlink at all — it is still the pre-existing real file —
because the outside marker protected `/m/t/d` and its contents. -/
theorem C6_counterexample :
    pathExists c2Fs 20 ["m", "t", ".keep"] = false ∧
    pathExists c2Fs 20 ["m", "t", "d", ".keep"] = false ∧
    runOk c2Run = true ∧
    statNode (resFs c2Run) 20 ["s", "d", "x"] = some Node.file ∧
    lstatNode (resFs c2Run) 20 ["m", "t", "d", "x"] = some Node.file ∧
    isSymlinkPath (resFs c2Run) 20 ["m", "t", "d", "x"] = false :=
  ⟨rfl, rfl, rfl, rfl, rfl, rfl⟩

/-- C4: when the mirrored target path of the popped entry does not exist, the
decision is `link` under EVERY policy, the iteration is exactly an attempt to
create the symlink at the mirrored path pointing at the source path (no keep
check is consulted — the marker state of ancestors is arbitrary, as the
quantification over `fs` covers every marker layout), and the whole iteration
is independent of the policy. -/
theorem C4_theorem (fs : Node) (rest : List FPath)
    (log : List (FPath × Option Node)) (fuel : Nat) (ow ow' : Overwrite)
    (source target source_path relp : FPath)
    (hstrip : strip_base source source_path = some relp)
    (hnex : pathExists fs fuel (target ++ relp) = false) :
    decide_action fs fuel ow source_path (target ++ relp) = Action.link ∧
    loopStep source target ow fuel ⟨fs, source_path :: rest, log⟩ =
      (match createSymlink fs fuel source_path (target ++ relp) with
       | some fs' => StepRes.next ⟨fs', rest, log⟩
       | none => StepRes.fail ⟨fs, source_path :: rest, log⟩) ∧
    loopStep source target ow fuel ⟨fs, source_path :: rest, log⟩ =
      loopStep source target ow' fuel ⟨fs, source_path :: rest, log⟩ := by
  have hda : ∀ o, decide_action fs fuel o source_path (target ++ relp) =
      Action.link := by
    intro o
    simp [decide_action, hnex]
  refine ⟨hda ow, ?_, ?_⟩
  · simp only [loopStep, hstrip, hda]
  · simp only [loopStep, hstrip, hda]

/-- C4 (witness): in `c4Fs` the ancestor `/m/t/d` of the mirrored path is
keep-protected, the mirrored path `/m/t/d/x` does not exist, and the popped
entry `/s/d/x` is nevertheless directly linked, under any policy. -/
theorem C4_witness :
    strip_base ["s"] ["s", "d", "x"] = some ["d", "x"] ∧
    keep_path c4Fs 20 ["m", "t", "d"] [".keep", ".keep_dirs"] = true ∧
    pathExists c4Fs 20 (["m", "t"] ++ ["d", "x"]) = false ∧
    (decide_action c4Fs 20 Overwrite.None ["s", "d", "x"]
        (["m", "t"] ++ ["d", "x"]) = Action.link ∧
      loopStep ["s"] ["m", "t"] Overwrite.None 20 ⟨c4Fs, [["s", "d", "x"]], []⟩ =
        (match createSymlink c4Fs 20 ["s", "d", "x"] (["m", "t"] ++ ["d", "x"]) with
         | some fs' => StepRes.next ⟨fs', [], []⟩
         | none => StepRes.fail ⟨c4Fs, [["s", "d", "x"]], []⟩) ∧
      loopStep ["s"] ["m", "t"] Overwrite.None 20 ⟨c4Fs, [["s", "d", "x"]], []⟩ =
        loopStep ["s"] ["m", "t"] Overwrite.Dirs 20 ⟨c4Fs, [["s", "d", "x"]], []⟩) :=
  ⟨rfl, rfl, rfl,
    C4_theorem c4Fs [] [] 20 Overwrite.None Overwrite.Dirs ["s"] ["m", "t"]
      ["s", "d", "x"] ["d", "x"] rfl rfl⟩

/-- C7: whenever the source or the target cannot be canonicalized, or
canonicalizes to something that is not a directory, `generate_symlinks`
returns a validation error before any traversal and leaves the filesystem
untouched, with an empty removal log. -/
theorem C7_theorem (fs : Node) (source target : FPath) (ow : Overwrite)
    (fuel steps : Nat)
    (h : canonicalize fs fuel source = none ∨
         canonicalize fs fuel target = none ∨
         (∃ src', canonicalize fs fuel source = some src' ∧
           isDirPath fs fuel src' = false) ∨
         (∃ tgt', canonicalize fs fuel target = some tgt' ∧
           isDirPath fs fuel tgt' = false)) :
    generate_symlinks fs source target ow fuel steps =
      RunResult.err ⟨fs, [], []⟩ := by
  unfold generate_symlinks
  rcases h with h | h | ⟨src', h1, h2⟩ | ⟨tgt', h1, h2⟩
  · simp [h]
  · rcases hc1 : canonicalize fs fuel source with _ | src
    · simp
    · simp [h]
  · rcases hc2 : canonicalize fs fuel target with _ | tgt
    · simp [h1, hc2]
    · simp [h1, hc2, h2]
  · rcases hc1 : canonicalize fs fuel source with _ | src
    · simp
    · simp [hc1, h1, h2]

/-- C7 (witness): calling with the plain file `/f` as source fails with a
validation error, for any policy, leaving the filesystem untouched. -/
theorem C7_witness :
    (canonicalize c7Fs 5 ["f"] = some ["f"] ∧
      isDirPath c7Fs 5 ["f"] = false) ∧
    generate_symlinks c7Fs ["f"] ["t"] Overwrite.All 5 5 =
      RunResult.err ⟨c7Fs, [], []⟩ :=
  ⟨⟨rfl, rfl⟩,
    C7_theorem c7Fs ["f"] ["t"] Overwrite.All 5 5
      (Or.inr (Or.inr (Or.inl ⟨["f"], rfl, rfl⟩)))⟩

/-- C9: when the mirrored target path holds a dangling symlink, the existence
test (which follows symlinks) reports false, so every policy and keep check
is bypassed and the iteration goes straight to symlink creation; creation
fails with `EEXIST` (the raw entry exists), the whole run aborts with an
error, and the dangling link is left in place. -/
theorem C9_theorem (fs : Node) (rest : List FPath)
    (log : List (FPath × Option Node)) (fuel : Nat) (ow : Overwrite)
    (source target source_path relp l : FPath)
    (hstrip : strip_base source source_path = some relp)
    (hl : lstatNode fs fuel (target ++ relp) = some (Node.symlink l))
    (hdangling : statNode fs fuel (target ++ relp) = none) :
    pathExists fs fuel (target ++ relp) = false ∧
    decide_action fs fuel ow source_path (target ++ relp) = Action.link ∧
    createSymlink fs fuel source_path (target ++ relp) = none ∧
    loopStep source target ow fuel ⟨fs, source_path :: rest, log⟩ =
      StepRes.fail ⟨fs, source_path :: rest, log⟩ ∧
    (∀ steps, runLoop source target ow fuel (steps + 1)
        ⟨fs, source_path :: rest, log⟩ =
      RunResult.err ⟨fs, source_path :: rest, log⟩) := by
  have hex : pathExists fs fuel (target ++ relp) = false := by
    simp [pathExists, hdangling]
  have hda : decide_action fs fuel ow source_path (target ++ relp) =
      Action.link := by
    simp [decide_action, hex]
  have hcs : createSymlink fs fuel source_path (target ++ relp) = none := by
    unfold createSymlink
    unfold lstatNode at hl
    rcases hgl : (target ++ relp).getLast? with _ | last
    · simp [hgl]
    · simp only [hgl] at hl
      simp only [hgl]
      rcases hr : resolveFrom fs fuel (target ++ relp).dropLast with _ | pp
      · simp [hr] at hl
      · simp only [hr] at hl
        simp only [hr]
        rcases hg : getNode fs pp with _ | nd
        · simp [hg] at hl
        · simp only [hg] at hl
          cases nd with
          | file => simp at hl
          | symlink t => simp at hl
          | dir es =>
            simp at hl
            simp [hl]
  have hstep : loopStep source target ow fuel
      ⟨fs, source_path :: rest, log⟩ =
      StepRes.fail ⟨fs, source_path :: rest, log⟩ := by
    simp only [loopStep, hstrip, hda, hcs]
  refine ⟨hex, hda, hcs, hstep, ?_⟩
  intro steps
  simp only [runLoop, hstep]

/-- C9 (witness): the dangling link `/t/a` (target `/gone` missing) makes the
`All` run abort at symlink creation, leaving the dangling link in place. -/
theorem C9_witness :
    strip_base ["s"] ["s", "a"] = some ["a"] ∧
    lstatNode c9Fs 20 (["t"] ++ ["a"]) = some (Node.symlink ["gone"]) ∧
    statNode c9Fs 20 (["t"] ++ ["a"]) = none ∧
    (pathExists c9Fs 20 (["t"] ++ ["a"]) = false ∧
      decide_action c9Fs 20 Overwrite.All ["s", "a"] (["t"] ++ ["a"]) =
        Action.link ∧
      createSymlink c9Fs 20 ["s", "a"] (["t"] ++ ["a"]) = none ∧
      loopStep ["s"] ["t"] Overwrite.All 20 ⟨c9Fs, [["s", "a"]], []⟩ =
        StepRes.fail ⟨c9Fs, [["s", "a"]], []⟩ ∧
      (∀ steps, runLoop ["s"] ["t"] Overwrite.All 20 (steps + 1)
          ⟨c9Fs, [["s", "a"]], []⟩ =
        RunResult.err ⟨c9Fs, [["s", "a"]], []⟩)) :=
  ⟨rfl, rfl, rfl,
    C9_theorem c9Fs [] [] 20 Overwrite.All ["s"] ["t"] ["s", "a"] ["a"]
      ["gone"] rfl rfl rfl⟩

/-- C10: the branch selection for an existing target follows symlinks.  A
target entry that is a symlink resolving to a directory takes the directory
branch of every policy (keep check against `.keep`/`.keep_dirs` and removal
candidate under `All` and `Dirs`, never-replace-but-maybe-recurse under
`Files`); one resolving to a regular file takes the file branch (keep check
against `.keep`/`.keep_files` and removal candidate under `All` and `Files`,
skip under `Dirs`). -/
theorem C10_theorem (fs : Node) (fuel : Nat) (sp tp l : FPath)
    (hl : lstatNode fs fuel tp = some (Node.symlink l)) :
    (∀ es, statNode fs fuel tp = some (Node.dir es) →
      isFilePath fs fuel tp = false ∧ isDirPath fs fuel tp = true ∧
      decide_action fs fuel Overwrite.All sp tp =
        (if keep_path fs fuel tp [".keep", ".keep_dirs"] then Action.pushSrc
         else Action.removeThenLink) ∧
      decide_action fs fuel Overwrite.Dirs sp tp =
        (if keep_path fs fuel tp [".keep", ".keep_dirs"] then Action.pushSrc
         else Action.removeThenLink) ∧
      decide_action fs fuel Overwrite.Files sp tp = Action.pushIfDir) ∧
    (statNode fs fuel tp = some Node.file →
      isFilePath fs fuel tp = true ∧ isDirPath fs fuel tp = false ∧
      decide_action fs fuel Overwrite.All sp tp =
        (if keep_path fs fuel tp [".keep", ".keep_files"] then Action.skip
         else Action.removeThenLink) ∧
      decide_action fs fuel Overwrite.Files sp tp =
        (if keep_path fs fuel tp [".keep", ".keep_files"] then Action.skip
         else Action.removeThenLink) ∧
      decide_action fs fuel Overwrite.Dirs sp tp = Action.skip) := by
  constructor
  · intro es hst
    have hf : isFilePath fs fuel tp = false := by simp [isFilePath, hst]
    have hd : isDirPath fs fuel tp = true := by simp [isDirPath, hst]
    have hex : pathExists fs fuel tp = true := by simp [pathExists, hst]
    refine ⟨hf, hd, ?_, ?_, ?_⟩ <;> simp [decide_action, hex, hf, hd]
  · intro hst
    have hf : isFilePath fs fuel tp = true := by simp [isFilePath, hst]
    have hd : isDirPath fs fuel tp = false := by simp [isDirPath, hst]
    have hex : pathExists fs fuel tp = true := by simp [pathExists, hst]
    refine ⟨hf, hd, ?_, ?_, ?_⟩ <;> simp [decide_action, hex, hf, hd]

/-- Over `c8Fs` under policy `None`, one loop iteration reproduces the very
same state: the popped entry `/s/a` conflicts with the existing `/t/a`, is a
directory through its symlink, and re-lists `/s`, pushing `/s/a` again. -/
theorem c8_step :
    loopStep ["s"] ["t"] Overwrite.None 20 c8St = StepRes.next c8St := rfl

/-- The loop over `c8Fs` never finishes, for any iteration budget. -/
theorem c8_loop : ∀ n,
    runLoop ["s"] ["t"] Overwrite.None 20 n c8St = RunResult.out c8St := by
  intro n
  induction n with
  | zero => rfl
  | succ m ih =>
    show runLoop ["s"] ["t"] Overwrite.None 20 (m + 1) c8St = RunResult.out c8St
    unfold runLoop
    rw [c8_step]
    exact ih

/-- C8 (counterexample): on the source tree of `c8Fs`, whose subdirectory
`/s/a` is a symlink pointing back at the source root, the run under policy
`None` never terminates: for every iteration budget the main loop is still
running (the stack never empties and no error occurs). -/
theorem C8_counterexample :
    ¬ ∃ steps, finished
        (generate_symlinks c8Fs ["s"] ["t"] Overwrite.None 20 steps) = true := by
  rintro ⟨steps, h⟩
  have hg : generate_symlinks c8Fs ["s"] ["t"] Overwrite.None 20 steps =
      runLoop ["s"] ["t"] Overwrite.None 20 steps c8St := rfl
  rw [hg, c8_loop] at h
  simp [finished] at h

/-- C6 (amended): under policy `All`, with no marker file anywhere in the
filesystem (not only in the target tree — see `C6_counterexample`) and with
disjoint canonical source and target directories, a successful run gives
every source child a symlink at its mirrored target path, and every deeper
path existing under the source resolves identically at its mirrored path
(through the created symlink, costing one extra resolution hop). -/
theorem C6_theorem (fs0 : Node) (source target : FPath)
    (ses tes : List (String × Node)) (dd F steps : Nat) (s' : St)
    (hs0 : getNode fs0 source = some (Node.dir ses))
    (ht0 : getNode fs0 target = some (Node.dir tes))
    (hst : ¬ isPre source target) (hts : ¬ isPre target source)
    (hm : markerFreeN dd fs0 = true)
    (hrun : generate_symlinks fs0 source target Overwrite.All F steps =
      RunResult.ok s') :
    (∀ n v, findEntry ses n = some v →
      lstatNode s'.fs F (target ++ [n]) =
        some (Node.symlink (source ++ [n]))) ∧
    (∀ (rel : FPath) (nd : Node) (F' : Nat), rel ≠ [] →
      statNode s'.fs F' (source ++ rel) = some nd →
      statNode s'.fs (F' + 1) (target ++ rel) = some nd) := by
  have hcanS : canonicalize fs0 F source = some source :=
    resolve_of_getNode hs0 F
  have hcanT : canonicalize fs0 F target = some target :=
    resolve_of_getNode ht0 F
  have hd1 : isDirPath fs0 F source = true := by
    simp [isDirPath, statNode_of_getNode_dir hs0 F]
  have hd2 : isDirPath fs0 F target = true := by
    simp [isDirPath, statNode_of_getNode_dir ht0 F]
  have hrsl : resolve_symlink fs0 F source = some source :=
    resolve_symlink_of_dir hs0 F
  have hgd : go_deeper fs0 F [] source =
      some ((ses.map (fun e => source ++ [e.1])).reverse ++ []) := by
    unfold go_deeper
    rw [hrsl]
    simp [read_dir, statNode_of_getNode_dir hs0 F]
  unfold generate_symlinks at hrun
  rw [hcanS, hcanT] at hrun
  simp only [hd1, hd2, Bool.not_true, Bool.or_self] at hrun
  rw [if_neg (by simp)] at hrun
  rw [hrsl] at hrun
  simp only [hgd] at hrun
  have hstack : (ses.map (fun e => source ++ [e.1])).reverse ++ [] =
      (ses.reverse.map Prod.fst).map (fun m => source ++ [m]) := by
    simp [List.map_map, Function.comp]
  rw [hstack] at hrun
  have hinv0 : TInv fs0 source target tes fs0 [] :=
    ⟨fun _ => rfl, markerFreeN_sound dd fs0 hm, tes, ht0,
      fun n hn => absurd hn (List.not_mem_nil n), fun _ _ => rfl⟩
  have htodo : ∀ m ∈ ses.reverse.map Prod.fst,
      ∃ v, findEntry ses m = some v := by
    intro m hm
    rcases List.mem_map.mp hm with ⟨e, he, rfl⟩
    exact mem_findEntry (c := e.1) (v := e.2)
      (by simpa using List.mem_reverse.mp he)
  have hfin := C6run fs0 source target ses tes F hs0 hst hts
    (ses.reverse.map Prod.fst) steps fs0 [] [] s' hinv0 htodo hrun
  obtain ⟨hsrc', hmf', tes', htgt', hdone', hrest'⟩ := hfin
  have hsrcN' : getNode s'.fs source = some (Node.dir ses) := by
    have h1 := hsrc' []
    simp only [List.append_nil] at h1
    rw [h1]
    exact hs0
  have hmemdone : ∀ n v, findEntry ses n = some v →
      n ∈ ses.reverse.map Prod.fst ++ [] := by
    intro n v hv
    have := findEntry_mem hv
    simp only [List.append_nil, List.mem_map, List.mem_reverse]
    exact ⟨(n, v), this, rfl⟩
  constructor
  · intro n v hv
    unfold lstatNode
    simp only [List.getLast?_concat, List.dropLast_concat,
      resolve_of_getNode htgt' F, htgt']
    exact hdone' n (hmemdone n v hv)
  · intro rel nd F' hrel hstat
    cases rel with
    | nil => exact absurd rfl hrel
    | cons n rest =>
      unfold statNode at hstat
      rcases hres : resolveFrom s'.fs F' (source ++ n :: rest)
        with _ | cp
      · rw [hres] at hstat
        simp at hstat
      · rw [hres] at hstat
        have hwsrc : walk s'.fs [] (source ++ n :: rest) =
            walk s'.fs source (n :: rest) := by
          have := walk_append s'.fs source [] (n :: rest)
            (plain_prefixes hsrcN')
          simpa using this
        have hn : ∃ v, findEntry ses n = some v := by
          rcases hfe : findEntry ses n with _ | v
          · exfalso
            have hwn : walk s'.fs [] (source ++ n :: rest) =
                WalkRes.res none := by
              rw [hwsrc]
              simp [walk, hsrcN', hfe]
            rw [resolveFrom_of_walk hwn F'] at hres
            simp at hres
          · exact ⟨v, rfl⟩
        rcases hn with ⟨v, hv⟩
        have hwtgt : walk s'.fs [] (target ++ n :: rest) =
            WalkRes.splice ((source ++ [n]) ++ rest) := by
          have h1 : walk s'.fs [] (target ++ n :: rest) =
              walk s'.fs target (n :: rest) := by
            have := walk_append s'.fs target [] (n :: rest)
              (plain_prefixes htgt')
            simpa using this
          rw [h1]
          simp [walk, htgt', hdone' n (hmemdone n v hv)]
        have hassoc : (source ++ [n]) ++ rest = source ++ n :: rest := by
          rw [List.append_assoc]
          rfl
        have hresT : resolveFrom s'.fs (F' + 1) (target ++ n :: rest) =
            some cp := by
          unfold resolveFrom
          simp only [hwtgt]
          rw [hassoc]
          exact hres
        unfold statNode
        rw [hresT]
        exact hstat

/-- C6 (witness): the amended theorem applied to `c6Fs`: the `All` run
succeeds with no markers anywhere, and the deep source file `/s/d/x`
resolves identically at `/t/d/x` through the created symlink. -/
theorem C6_witness :
    (getNode c6Fs ["s"] =
        some (Node.dir [("a", Node.file), ("d", Node.dir [("x", Node.file)])]) ∧
      markerFreeN 5 c6Fs = true ∧
      generate_symlinks c6Fs ["s"] ["t"] Overwrite.All 10 10 =
        RunResult.ok (resSt (generate_symlinks c6Fs ["s"] ["t"]
          Overwrite.All 10 10))) ∧
    ((∀ n v, findEntry
        [("a", Node.file), ("d", Node.dir [("x", Node.file)])] n = some v →
      lstatNode (resSt (generate_symlinks c6Fs ["s"] ["t"]
          Overwrite.All 10 10)).fs 10 (["t"] ++ [n]) =
        some (Node.symlink (["s"] ++ [n]))) ∧
    (∀ (rel : FPath) (nd : Node) (F' : Nat), rel ≠ [] →
      statNode (resSt (generate_symlinks c6Fs ["s"] ["t"]
          Overwrite.All 10 10)).fs F' (["s"] ++ rel) = some nd →
      statNode (resSt (generate_symlinks c6Fs ["s"] ["t"]
          Overwrite.All 10 10)).fs (F' + 1) (["t"] ++ rel) = some nd)) :=
  ⟨⟨rfl, rfl, rfl⟩,
    C6_theorem c6Fs ["s"] ["t"]
      [("a", Node.file), ("d", Node.dir [("x", Node.file)])]
      [("a", Node.file)] 5 10 10 _ rfl rfl
      (by rintro ⟨t, ht⟩; have h2 := congrArg List.head? ht; simp at h2)
      (by rintro ⟨t, ht⟩; have h2 := congrArg List.head? ht; simp at h2)
      rfl rfl⟩

/-- C10 (witness): the theorem applied to the symlink `/ln` of `c10Fs`, whose
referent `/d` is a directory: its existing-target classification selects the
directory branch of each policy. -/
theorem C10_witness :
    lstatNode c10Fs 5 ["ln"] = some (Node.symlink ["d"]) ∧
    statNode c10Fs 5 ["ln"] = some (Node.dir []) ∧
    isDirPath c10Fs 5 ["ln"] = true ∧
    decide_action c10Fs 5 Overwrite.Dirs ["x"] ["ln"] =
      (if keep_path c10Fs 5 ["ln"] [".keep", ".keep_dirs"] then Action.pushSrc
       else Action.removeThenLink) ∧
    decide_action c10Fs 5 Overwrite.Files ["x"] ["ln"] = Action.pushIfDir :=
  ⟨rfl, rfl,
    ((C10_theorem c10Fs 5 ["x"] ["ln"] ["d"] rfl).1 [] rfl).2.1,
    ((C10_theorem c10Fs 5 ["x"] ["ln"] ["d"] rfl).1 [] rfl).2.2.2.1,
    ((C10_theorem c10Fs 5 ["x"] ["ln"] ["d"] rfl).1 [] rfl).2.2.2.2⟩

/-- Soundness of the fuelled symlink-freeness check. -/
theorem symlinkFreeN_sound : ∀ (d : Nat) (fs : Node),
    symlinkFreeN d fs = true → SymlinkFree fs := by
  intro d
  induction d with
  | zero => intro fs h; simp [symlinkFreeN] at h
  | succ d ih =>
    intro fs h
    cases fs with
    | file => exact SymlinkFree.file
    | symlink t => simp [symlinkFreeN] at h
    | dir es =>
      refine SymlinkFree.dir _ ?_
      intro k v hv
      simp only [symlinkFreeN] at h
      exact ih v (List.all_eq_true.mp h _ (findEntry_mem hv))

/-- Subtrees of a symlink-free tree are symlink-free. -/
theorem SymlinkFree_getNode {fs : Node} (hsf : SymlinkFree fs) :
    ∀ (q : FPath) (m : Node), getNode fs q = some m → SymlinkFree m := by
  intro q
  induction q generalizing fs with
  | nil =>
    intro m h
    simp only [getNode] at h
    rcases Option.some.inj h with rfl
    exact hsf
  | cons c rest ih =>
    intro m h
    cases hsf with
    | file => simp [getNode] at h
    | dir es hs =>
      simp only [getNode] at h
      rcases hfe : findEntry es c with _ | ch
      · rw [hfe] at h
        simp at h
      · rw [hfe] at h
        exact ih (hs c ch hfe) m h

/-- In a symlink-free tree, no path points at a symlink. -/
theorem SymlinkFree_no_symlink {fs : Node} (hsf : SymlinkFree fs) :
    ∀ (q : FPath) (l : FPath), getNode fs q ≠ some (Node.symlink l) := by
  intro q l h
  have h2 := SymlinkFree_getNode hsf q _ h
  cases h2

/-- Soundness of the entry-name uniqueness check. -/
theorem nodupKeys_sound : ∀ es : List (String × Node),
    nodupKeys es = true → List.Pairwise (fun e1 e2 => e1.1 ≠ e2.1) es := by
  intro es
  induction es with
  | nil => intro _; exact List.Pairwise.nil
  | cons e tl ih =>
    obtain ⟨n, v⟩ := e
    intro h
    simp only [nodupKeys, Bool.and_eq_true] at h
    refine List.Pairwise.cons ?_ (ih h.2)
    intro e' he'
    have h3 := List.all_eq_true.mp h.1 e' he'
    simp only [bne_iff_ne, ne_eq] at h3
    exact fun heq => h3 heq.symm

/-- Soundness of the fuelled duplicate-name check. -/
theorem nodupN_sound : ∀ (d : Nat) (fs : Node),
    nodupN d fs = true → NodupNames fs := by
  intro d
  induction d with
  | zero => intro fs h; simp [nodupN] at h
  | succ d ih =>
    intro fs h
    cases fs with
    | file => exact NodupNames.file
    | symlink t => exact NodupNames.symlink t
    | dir es =>
      simp only [nodupN, Bool.and_eq_true] at h
      refine NodupNames.dir _ (nodupKeys_sound es h.1) ?_
      intro k v hv
      exact ih v (List.all_eq_true.mp h.2 _ (findEntry_mem hv))

/-- Subtrees of a duplicate-free tree are duplicate-free. -/
theorem NodupNames_getNode {fs : Node} (hnd : NodupNames fs) :
    ∀ (q : FPath) (m : Node), getNode fs q = some m → NodupNames m := by
  intro q
  induction q generalizing fs with
  | nil =>
    intro m h
    simp only [getNode] at h
    rcases Option.some.inj h with rfl
    exact hnd
  | cons c rest ih =>
    intro m h
    cases hnd with
    | file => simp [getNode] at h
    | symlink t => simp [getNode] at h
    | dir es hp hs =>
      simp only [getNode] at h
      rcases hfe : findEntry es c with _ | ch
      · rw [hfe] at h
        simp at h
      · rw [hfe] at h
        exact ih (hs c ch hfe) m h

/-- Every tree has positive size. -/
theorem nsize_pos : ∀ m : Node, 1 ≤ nsize m := by
  intro m
  cases m with
  | file => simp [nsize]
  | symlink t => simp [nsize]
  | dir es => simp [nsize]

/-- Total subtree size of the entries is below the entry-list size. -/
theorem sum_nsize_le_esize : ∀ es : List (String × Node),
    ((es.map (fun e => nsize e.2)).sum) ≤ esize es := by
  intro es
  induction es with
  | nil => simp
  | cons e tl ih =>
    obtain ⟨n, v⟩ := e
    simp only [List.map_cons, List.sum_cons, esize]
    omega

/-- In a duplicate-free entry list, membership determines the lookup. -/
theorem findEntry_of_mem_nodup :
    ∀ {es : List (String × Node)},
      List.Pairwise (fun e1 e2 => e1.1 ≠ e2.1) es →
      ∀ {n : String} {v : Node}, (n, v) ∈ es → findEntry es n = some v := by
  intro es
  induction es with
  | nil => intro _ n v h; simp at h
  | cons e tl ih =>
    obtain ⟨m, w⟩ := e
    intro hp n v hmem
    rcases List.mem_cons.mp hmem with heq | hmem'
    · simp only [Prod.mk.injEq] at heq
      obtain ⟨rfl, rfl⟩ := heq
      simp [findEntry]
    · have hne : m ≠ n := List.rel_of_pairwise_cons hp hmem'
      simp only [findEntry, if_neg hne]
      exact ih (List.Pairwise.of_cons hp) hmem'

/-- Mutual prefixes are equal. -/
theorem isPre_antisymm {a b : FPath} (h1 : isPre a b) (h2 : isPre b a) :
    a = b := by
  rcases h1 with ⟨t1, ht1⟩
  rcases h2 with ⟨t2, ht2⟩
  have hl1 := congrArg List.length ht1
  have hl2 := congrArg List.length ht2
  simp only [List.length_append] at hl1 hl2
  have ht1e : t1 = [] := List.eq_nil_of_length_eq_zero (by omega)
  rw [ht1e, List.append_nil] at ht1
  exact ht1

/-- A singleton path prefixes another singleton only when equal. -/
theorem isPre_singleton {a b : String} (h : isPre [a] [b]) : a = b := by
  rcases h with ⟨t, ht⟩
  have hl := congrArg List.length ht
  simp only [List.length_append, List.length_cons, List.length_nil] at hl
  have hte : t = [] := List.eq_nil_of_length_eq_zero (by omega)
  rw [hte, List.append_nil] at ht
  exact (List.cons_eq_cons.mp ht).1

/-- Incomparability is symmetric. -/
theorem incomp_symm {a b : FPath} (h : incomp a b) : incomp b a := ⟨h.2, h.1⟩

/-- Incomparability of common-prefix extensions does not depend on the
common prefix. -/
theorem incomp_rebase {a b x y : FPath} (h : incomp (x ++ a) (x ++ b)) :
    incomp (y ++ a) (y ++ b) := by
  constructor
  · intro hp
    exact h.1 (isPre_append_left_iff.mpr (isPre_append_left_iff.mp hp))
  · intro hp
    exact h.2 (isPre_append_left_iff.mpr (isPre_append_left_iff.mp hp))

/-- Distinctly named children of a common parent are pairwise
incomparable. -/
theorem children_pairwise_incomp {es : List (String × Node)} {base : FPath}
    (hnd : List.Pairwise (fun e1 e2 => e1.1 ≠ e2.1) es) :
    List.Pairwise incomp (es.map (fun e => base ++ [e.1])) := by
  rw [List.pairwise_map]
  refine List.Pairwise.imp ?_ hnd
  intro e1 e2 hne
  constructor
  · intro hp
    exact hne (isPre_singleton (isPre_append_left_iff.mp hp))
  · intro hp
    exact hne (isPre_singleton (isPre_append_left_iff.mp hp)).symm

/-- Walking a path that meets no symlink either lands exactly on the path or
fails; it never splices. -/
theorem walk_nosym (fs : Node) :
    ∀ (r acc : FPath),
      (∀ a, isPre a r → a ≠ [] → ∀ l,
        getNode fs (acc ++ a) ≠ some (Node.symlink l)) →
      walk fs acc r = WalkRes.res (some (acc ++ r)) ∨
        walk fs acc r = WalkRes.res none := by
  intro r
  induction r with
  | nil =>
    intro acc _
    left
    simp [walk]
  | cons c rest ih =>
    intro acc hns
    rcases hacc : getNode fs acc with _ | m
    · right
      simp [walk, hacc]
    · cases m with
      | file =>
        right
        simp [walk, hacc]
      | symlink t =>
        right
        simp [walk, hacc]
      | dir es =>
        rcases hfe : findEntry es c with _ | ch
        · right
          simp [walk, hacc, hfe]
        · have hch : getNode fs (acc ++ [c]) = some ch := by
            rw [getNode_append, hacc]
            simp only [Option.some_bind, getNode, hfe]
          cases ch with
          | file =>
            cases rest with
            | nil =>
              left
              simp [walk, hacc, hfe]
            | cons d ds =>
              right
              simp [walk, hacc, hfe]
          | symlink t =>
            exact absurd hch (hns [c] ⟨rest, rfl⟩ (by simp) t)
          | dir es2 =>
            have hstep : walk fs acc (c :: rest) =
                walk fs (acc ++ [c]) rest := by
              simp [walk, hacc, hfe]
            rw [hstep]
            have hcond : ∀ a, isPre a rest → a ≠ [] → ∀ l,
                getNode fs ((acc ++ [c]) ++ a) ≠ some (Node.symlink l) := by
              intro a ha hne l
              rcases ha with ⟨t2, ht2⟩
              have := hns (c :: a) ⟨t2, by rw [← ht2]; rfl⟩ (by simp) l
              rw [List.append_assoc]
              exact this
            rcases ih (acc ++ [c]) hcond with h | h
            · left
              rw [h, List.append_assoc]
              rfl
            · right
              exact h

/-- Resolution of a path meeting no symlink is the identity or a failure. -/
theorem resolve_nosym {fs : Node} {p : FPath}
    (hns : ∀ a, isPre a p → a ≠ [] → ∀ l,
      getNode fs a ≠ some (Node.symlink l)) (fuel : Nat) :
    resolveFrom fs fuel p = some p ∨ resolveFrom fs fuel p = none := by
  rcases walk_nosym fs p [] (by
      intro a ha hne l
      simpa using hns a ha hne l) with h | h
  · left
    have h2 := resolveFrom_of_walk h fuel
    simpa using h2
  · right
    exact resolveFrom_of_walk h fuel

/-- The resolved node of a symlink-avoiding path is its structural node (or
the lookup fails). -/
theorem stat_nosym {fs : Node} {p : FPath}
    (hns : ∀ a, isPre a p → a ≠ [] → ∀ l,
      getNode fs a ≠ some (Node.symlink l)) (fuel : Nat) :
    statNode fs fuel p = getNode fs p ∨ statNode fs fuel p = none := by
  rcases resolve_nosym hns fuel with h | h
  · left
    unfold statNode
    rw [h]
  · right
    unfold statNode
    rw [h]

/-- Single-component lookup below a directory is the entry lookup. -/
theorem getNode_concat_dir {fs : Node} {L : FPath} {b : String}
    {es : List (String × Node)} (hL : getNode fs L = some (Node.dir es)) :
    getNode fs (L ++ [b]) = findEntry es b := by
  rw [getNode_append, hL]
  simp only [Option.some_bind, getNode]
  rcases hfe : findEntry es b with _ | ch
  · simp [hfe]
  · simp [hfe, getNode]

/-- The `lstat` node of a symlink-avoiding path is its structural node (or
the lookup fails). -/
theorem lstat_nosym {fs : Node} {p : FPath}
    (hns : ∀ a, isPre a p → a ≠ [] → ∀ l,
      getNode fs a ≠ some (Node.symlink l)) (fuel : Nat) :
    lstatNode fs fuel p = getNode fs p ∨ lstatNode fs fuel p = none := by
  rcases List.eq_nil_or_concat p with rfl | ⟨L, b, rfl⟩
  · left
    simp [lstatNode, getNode]
  · rw [List.concat_eq_append] at hns ⊢
    have hnsL : ∀ a, isPre a L → a ≠ [] → ∀ l,
        getNode fs a ≠ some (Node.symlink l) := by
      intro a ha hne l
      exact hns a (isPre_trans ha (isPre_append L [b])) hne l
    rcases resolve_nosym hnsL fuel with h | h
    · rcases hL : getNode fs L with _ | m
      · right
        unfold lstatNode
        simp [List.getLast?_concat, List.dropLast_concat, h, hL]
      · cases m with
        | file =>
          right
          unfold lstatNode
          simp [List.getLast?_concat, List.dropLast_concat, h, hL]
        | symlink t =>
          right
          unfold lstatNode
          simp [List.getLast?_concat, List.dropLast_concat, h, hL]
        | dir es =>
          left
          unfold lstatNode
          simp only [List.getLast?_concat, List.dropLast_concat, h, hL]
          rw [getNode_concat_dir hL]
    · right
      unfold lstatNode
      simp [List.getLast?_concat, List.dropLast_concat, h]

/-- `resolve_symlink` leaves a nonempty symlink-avoiding path unchanged. -/
theorem resolve_symlink_nosym {fs : Node} {p : FPath} (hp : p ≠ [])
    (hns : ∀ a, isPre a p → a ≠ [] → ∀ l,
      getNode fs a ≠ some (Node.symlink l)) (fuel : Nat) :
    resolve_symlink fs fuel p = some p := by
  unfold resolve_symlink
  have hsym : isSymlinkPath fs fuel p = false := by
    unfold isSymlinkPath
    rcases lstat_nosym hns fuel with h | h
    · rw [h]
      rcases hg : getNode fs p with _ | m
      · rfl
      · cases m with
        | file => rfl
        | symlink l => exact absurd hg (hns p (isPre_refl p) hp l)
        | dir es => rfl
    · rw [h]
  rw [hsym]
  simp

/-- New symlink positions after an entry-list update at `t` lie at the single
inserted entry; every other symlink was already present. -/
theorem symPos_update {fs : Node} {t : FPath} {tes0 : List (String × Node)}
    (ht : getNode fs t = some (Node.dir tes0)) (n₀ : String)
    (f : List (String × Node) → List (String × Node))
    (hself : ∀ h v, findEntry (f tes0) h = some v →
      (h = n₀ ∧ ∃ s₀, v = Node.symlink s₀) ∨ findEntry tes0 h = some v) :
    ∀ q l, getNode (updateAt f t fs) q = some (Node.symlink l) →
      (q = t ++ [n₀] ∧ findEntry (f tes0) n₀ = some (Node.symlink l)) ∨
        getNode fs q = some (Node.symlink l) := by
  intro q l hq
  rcases Classical.em (isPre t q) with htq | htq
  · rcases Classical.em (isPre q t) with hqt | hqt
    · have heq : q = t := isPre_antisymm hqt htq
      subst heq
      rw [getNode_updateAt_self f q fs tes0 ht] at hq
      exact absurd hq (by simp)
    · rcases htq with ⟨relQ, rfl⟩
      cases relQ with
      | nil => exact absurd (⟨[], by simp⟩ : isPre (t ++ []) t) hqt
      | cons h0 tail =>
        have hupd : getNode (updateAt f t fs) t = some (Node.dir (f tes0)) :=
          getNode_updateAt_self f t fs tes0 ht
        rw [getNode_append, hupd] at hq
        simp only [Option.some_bind, getNode] at hq
        rcases hfe : findEntry (f tes0) h0 with _ | ch
        · rw [hfe] at hq
          simp at hq
        · simp only [hfe] at hq
          rcases hself h0 ch hfe with ⟨rfl, s₀, rfl⟩ | hold
          · cases tail with
            | nil =>
              simp only [getNode] at hq
              injection hq with h2
              injection h2 with h3
              subst h3
              exact Or.inl ⟨rfl, hfe⟩
            | cons d ds =>
              simp [getNode] at hq
          · right
            rw [getNode_append, ht]
            simp only [Option.some_bind, getNode]
            simp only [hold]
            exact hq
  · rcases Classical.em (isPre q t) with hqt | hqt
    · have hqNe : q ≠ t := by
        intro he
        rw [he] at htq
        exact htq (isPre_refl t)
      rcases hqt with ⟨u, hu⟩
      have hune : u ≠ [] := by
        intro he
        rw [he, List.append_nil] at hu
        exact hqNe hu
      rw [← hu] at ht
      rcases getNode_pre_dir ht hune with ⟨esQ, hesQ⟩
      rcases getNode_updateAt_dir f q t fs esQ ⟨u, hu⟩ hesQ with ⟨es2, h2⟩
      rw [h2] at hq
      exact absurd hq (by simp)
    · right
      rw [getNode_updateAt_off f t q fs htq hqt] at hq
      exact hq

/-- Deleting an entry creates no symlink position. -/
theorem symPos_del {fs : Node} {t : FPath} {tes0 : List (String × Node)}
    (ht : getNode fs t = some (Node.dir tes0)) (n₀ : String) :
    ∀ q l, getNode (updateAt (fun es => delEntry es n₀) t fs) q =
        some (Node.symlink l) → getNode fs q = some (Node.symlink l) := by
  intro q l hq
  rcases symPos_update ht n₀ _
      (fun h v hv => Or.inr (findEntry_delEntry_sub hv)) q l hq with
    ⟨_, hfe⟩ | hold
  · have h2 : findEntry (delEntry tes0 n₀) n₀ = some (Node.symlink l) := hfe
    rw [findEntry_delEntry_self] at h2
    exact absurd h2 (by simp)
  · exact hold

/-- Appending a symlink entry adds exactly one symlink position. -/
theorem symPos_append {fs : Node} {t : FPath} {tes0 : List (String × Node)}
    (ht : getNode fs t = some (Node.dir tes0)) (n₀ : String) (s₀ : FPath) :
    ∀ q l,
      getNode (updateAt (fun es => es ++ [(n₀, Node.symlink s₀)]) t fs) q =
        some (Node.symlink l) →
      q = t ++ [n₀] ∨ getNode fs q = some (Node.symlink l) := by
  have hself : ∀ h v,
      findEntry (tes0 ++ [(n₀, Node.symlink s₀)]) h = some v →
      (h = n₀ ∧ ∃ s1, v = Node.symlink s1) ∨ findEntry tes0 h = some v := by
    intro h v hv
    rw [findEntry_append] at hv
    rcases hfe : findEntry tes0 h with _ | v0
    · rw [hfe] at hv
      simp only [findEntry] at hv
      by_cases hn : n₀ = h
      · rw [if_pos hn] at hv
        rcases Option.some.inj hv with rfl
        exact Or.inl ⟨hn.symm, s₀, rfl⟩
      · rw [if_neg hn] at hv
        simp [findEntry] at hv
    · rw [hfe] at hv
      rcases Option.some.inj hv with rfl
      exact Or.inr rfl
  intro q l hq
  rcases symPos_update ht n₀ _ hself q l hq with ⟨hqe, _⟩ | hold
  · exact Or.inl hqe
  · exact Or.inr hold

/-- A target-subtree path is incomparable with every source-subtree path. -/
theorem tgt_src_off {source target : FPath} (hst : ¬ isPre source target)
    (hts : ¬ isPre target source) (x r : FPath) :
    ¬ isPre (target ++ x) (source ++ r) ∧
      ¬ isPre (source ++ r) (target ++ x) := by
  constructor
  · intro h
    exact (disjoint_off hst hts).1 (isPre_trans (isPre_append target x) h)
  · intro h
    rcases isPre_comparable (isPre_trans (isPre_append source r) h)
      (isPre_append target x) with h1 | h1
    · exact hst h1
    · exact hts h1

/-- The invariant restricts to the tail of the stack. -/
theorem Inv8_tail {fs0 : Node} {source target : FPath} {fsk : Node}
    {p : FPath} {rest : List FPath}
    (h : Inv8 fs0 source target fsk (p :: rest)) :
    Inv8 fs0 source target fsk rest := by
  obtain ⟨hA, hB, hT, hC, hS⟩ := h
  exact ⟨fun q hq => hA q (List.mem_cons_of_mem _ hq), hB, hT,
    List.Pairwise.of_cons hC,
    fun q l hql p' hp' => hS q l hql p' (List.mem_cons_of_mem _ hp')⟩

/-- Popping a live entry strictly decreases the measure. -/
theorem measure_tail_lt {fs0 : Node} {p : FPath} {rest : List FPath}
    {m : Node} (hm : getNode fs0 p = some m) :
    measureOf fs0 rest < measureOf fs0 (p :: rest) := by
  have hw : weight fs0 p = nsize m := by
    unfold weight
    rw [hm]
  unfold measureOf
  simp only [List.map_cons, List.sum_cons]
  rw [hw]
  have := nsize_pos m
  omega

/-- A successful removal at the mirror of the popped entry preserves the
invariant, with the popped entry still pending. -/
theorem Inv8_remove (fs0 : Node) (source target : FPath)
    (hst : ¬ isPre source target) (hts : ¬ isPre target source)
    (fsk : Node) (relL : FPath) (b : String) (stack : List FPath)
    (hinv : Inv8 fs0 source target fsk stack)
    (esN : List (String × Node))
    (hdir : getNode fsk (target ++ relL) = some (Node.dir esN)) :
    Inv8 fs0 source target
      (updateAt (fun es => delEntry es b) (target ++ relL) fsk) stack := by
  obtain ⟨hA, hB, ⟨tesk, hT⟩, hC, hS⟩ := hinv
  refine ⟨hA, ?_, ?_, hC, ?_⟩
  · intro r
    rw [getNode_updateAt_off _ (target ++ relL) (source ++ r) fsk
      (tgt_src_off hst hts relL r).1 (tgt_src_off hst hts relL r).2]
    exact hB r
  · rcases getNode_updateAt_dir _ target (target ++ relL) fsk tesk
      ⟨relL, rfl⟩ hT with ⟨tes2, h2⟩
    exact ⟨tes2, h2⟩
  · intro q l hql p' hp' rel' hp'e
    exact hS q l (symPos_del hdir b q l hql) p' hp' rel' hp'e

/-- A successful symlink creation at the mirror of the popped entry restores
the invariant on the remaining stack. -/
theorem Inv8_create (fs0 : Node) (source target : FPath)
    (hst : ¬ isPre source target) (hts : ¬ isPre target source)
    (fsN : Node) (rel relL : FPath) (b : String) (rest : List FPath)
    (hsplit : relL ++ [b] = rel)
    (hinv : Inv8 fs0 source target fsN ((source ++ rel) :: rest))
    (esN : List (String × Node))
    (hdir : getNode fsN (target ++ relL) = some (Node.dir esN)) :
    Inv8 fs0 source target
      (updateAt (fun es => es ++ [(b, Node.symlink (source ++ rel))])
        (target ++ relL) fsN) rest := by
  obtain ⟨hA, hB, ⟨tesk, hT⟩, hC, hS⟩ := hinv
  refine ⟨fun q hq => hA q (List.mem_cons_of_mem _ hq), ?_, ?_,
    List.Pairwise.of_cons hC, ?_⟩
  · intro r
    rw [getNode_updateAt_off _ (target ++ relL) (source ++ r) fsN
      (tgt_src_off hst hts relL r).1 (tgt_src_off hst hts relL r).2]
    exact hB r
  · rcases getNode_updateAt_dir _ target (target ++ relL) fsN tesk
      ⟨relL, rfl⟩ hT with ⟨tes2, h2⟩
    exact ⟨tes2, h2⟩
  · intro q l hql p' hp' rel' hp'e
    rcases symPos_append hdir b (source ++ rel) q l hql with hqe | hold
    · subst hqe
      have hinc : incomp (source ++ rel) p' :=
        List.rel_of_pairwise_cons hC hp'
      rw [hp'e] at hinc
      have hinc2 : incomp (target ++ rel) (target ++ rel') :=
        @incomp_rebase rel rel' source target hinc
      rw [List.append_assoc, hsplit]
      exact hinc2
    · exact hS q l hold p' (List.mem_cons_of_mem _ hp') rel' hp'e

/-- Listing the popped source directory and pushing its children keeps the
invariant and strictly decreases the measure. -/
theorem Inv8_push (fs0 : Node) (source target : FPath)
    (hnd : NodupNames fs0)
    (fsk : Node) (rel : FPath) (rest : List FPath)
    (esp : List (String × Node))
    (hinv : Inv8 fs0 source target fsk ((source ++ rel) :: rest))
    (hdirp : getNode fs0 (source ++ rel) = some (Node.dir esp)) :
    Inv8 fs0 source target fsk
      ((esp.map (fun e => (source ++ rel) ++ [e.1])).reverse ++ rest) ∧
      measureOf fs0
        ((esp.map (fun e => (source ++ rel) ++ [e.1])).reverse ++ rest) <
        measureOf fs0 ((source ++ rel) :: rest) := by
  obtain ⟨hA, hB, ⟨tesk, hT⟩, hC, hS⟩ := hinv
  have hndp : List.Pairwise (fun e1 e2 => e1.1 ≠ e2.1) esp := by
    have h2 := NodupNames_getNode hnd (source ++ rel) _ hdirp
    cases h2 with
    | dir es hp hs => exact hp
  have hchild_get : ∀ e ∈ esp,
      getNode fs0 ((source ++ rel) ++ [e.1]) = some e.2 := by
    intro e he
    rw [getNode_concat_dir hdirp]
    exact findEntry_of_mem_nodup hndp he
  constructor
  · refine ⟨?_, hB, ⟨tesk, hT⟩, ?_, ?_⟩
    · intro q hq
      rcases List.mem_append.mp hq with hq | hq
      · rcases List.mem_map.mp (List.mem_reverse.mp hq) with ⟨e, he, rfl⟩
        refine ⟨rel ++ [e.1], by simp, by rw [List.append_assoc], ?_⟩
        rw [← List.append_assoc, hchild_get e he]
        rfl
      · exact hA q (List.mem_cons_of_mem _ hq)
    · rw [List.pairwise_append]
      refine ⟨List.pairwise_reverse.mpr
          (List.Pairwise.imp (fun h => incomp_symm h)
            (children_pairwise_incomp hndp)),
        List.Pairwise.of_cons hC, ?_⟩
      intro a ha q hq
      rcases List.mem_map.mp (List.mem_reverse.mp ha) with ⟨e, he, rfl⟩
      have hhead : incomp (source ++ rel) q :=
        List.rel_of_pairwise_cons hC hq
      constructor
      · intro hp
        exact hhead.1 (isPre_trans (isPre_append _ _) hp)
      · intro hp
        rcases isPre_comparable hp (isPre_append (source ++ rel) [e.1])
          with h1 | h1
        · exact hhead.2 h1
        · exact hhead.1 h1
    · intro q l hql p' hp' rel' hp'e
      rcases List.mem_append.mp hp' with hp' | hp'
      · rcases List.mem_map.mp (List.mem_reverse.mp hp') with ⟨e, he, hpe⟩
        have hq0 : incomp q (target ++ rel) :=
          hS q l hql (source ++ rel) (List.mem_cons_self _ _) rel rfl
        have hrel' : rel' = rel ++ [e.1] := by
          rw [← hpe, List.append_assoc] at hp'e
          exact (List.append_cancel_left hp'e.symm)
        subst hrel'
        constructor
        · intro hp
          have h2 : isPre (target ++ rel) (target ++ (rel ++ [e.1])) := by
            rw [← List.append_assoc]
            exact isPre_append _ _
          rcases isPre_comparable hp h2 with h1 | h1
          · exact hq0.1 h1
          · exact hq0.2 h1
        · intro hp
          have h2 : isPre (target ++ rel) (target ++ (rel ++ [e.1])) := by
            rw [← List.append_assoc]
            exact isPre_append _ _
          exact hq0.2 (isPre_trans h2 hp)
      · exact hS q l hql p' (List.mem_cons_of_mem _ hp') rel' hp'e
  · unfold measureOf
    rw [List.map_append, List.sum_append, List.map_reverse, List.sum_reverse]
    have hwc : (esp.map (fun e => (source ++ rel) ++ [e.1])).map
        (weight fs0) = esp.map (fun e => nsize e.2) := by
      rw [List.map_map]
      refine List.map_congr_left ?_
      intro e he
      simp only [Function.comp]
      unfold weight
      rw [hchild_get e he]
    rw [hwc]
    have hle := sum_nsize_le_esize esp
    have hwp : weight fs0 (source ++ rel) = nsize (Node.dir esp) := by
      unfold weight
      rw [hdirp]
    have hsz : nsize (Node.dir esp) = 1 + esize esp := by
      simp [nsize]
    simp only [List.map_cons, List.sum_cons, hwp, hsz]
    omega

/-- One continuing iteration from an `Inv8` state maintains the invariant
and strictly decreases the measure (every other iteration finishes the
run). -/
theorem C8step (fs0 : Node) (source target : FPath) (ow : Overwrite) (F : Nat)
    (ses : List (String × Node))
    (hs0 : getNode fs0 source = some (Node.dir ses))
    (hsf : SymlinkFree fs0) (hnd : NodupNames fs0)
    (hst : ¬ isPre source target) (hts : ¬ isPre target source)
    (fsk : Node) (p : FPath) (rest : List FPath)
    (log : List (FPath × Option Node)) (s' : St)
    (hinv : Inv8 fs0 source target fsk (p :: rest))
    (hstep : loopStep source target ow F ⟨fsk, p :: rest, log⟩ =
      StepRes.next s') :
    Inv8 fs0 source target s'.fs s'.stack ∧
      measureOf fs0 s'.stack < measureOf fs0 (p :: rest) := by
  obtain ⟨hA, hB, ⟨tesk, hT⟩, hC, hS⟩ := hinv
  rcases hA p (List.mem_cons_self _ _) with ⟨rel, hrelne, hpe, hsome⟩
  subst hpe
  rcases Option.isSome_iff_exists.mp hsome with ⟨m0, hm0⟩
  have hBn : getNode fsk (source ++ rel) = some m0 := by
    rw [hB rel]
    exact hm0
  have hsrcN : getNode fsk source = some (Node.dir ses) := by
    have h1 := hB []
    rw [List.append_nil] at h1
    rw [h1]
    exact hs0
  have hns_src : ∀ a, isPre a (source ++ rel) → a ≠ [] → ∀ l,
      getNode fsk a ≠ some (Node.symlink l) := by
    intro a ha hane l hcon
    rcases isPre_comparable ha (isPre_append source rel) with h1 | h1
    · rcases h1 with ⟨u, hu⟩
      cases u with
      | nil =>
        rw [List.append_nil] at hu
        rw [hu, hsrcN] at hcon
        simp at hcon
      | cons c cs =>
        have h2 := hsrcN
        rw [← hu] at h2
        rcases getNode_pre_dir h2 (by simp) with ⟨esA, hesA⟩
        rw [hesA] at hcon
        simp at hcon
    · rcases h1 with ⟨x2, rfl⟩
      rw [hB x2] at hcon
      exact SymlinkFree_no_symlink hsf _ l hcon
  have hns_tgt : ∀ y, isPre y rel → ∀ a, isPre a (target ++ y) → a ≠ [] →
      ∀ l, getNode fsk a ≠ some (Node.symlink l) := by
    intro y hy a ha hane l hcon
    rcases isPre_comparable ha (isPre_append target y) with h1 | h1
    · rcases h1 with ⟨u, hu⟩
      cases u with
      | nil =>
        rw [List.append_nil] at hu
        rw [hu, hT] at hcon
        simp at hcon
      | cons c cs =>
        have h2 := hT
        rw [← hu] at h2
        rcases getNode_pre_dir h2 (by simp) with ⟨esA, hesA⟩
        rw [hesA] at hcon
        simp at hcon
    · rcases h1 with ⟨x2, rfl⟩
      have hinc := hS (target ++ x2) l hcon (source ++ rel)
        (List.mem_cons_self _ _) rel rfl
      exact hinc.1 (isPre_append_left_iff.mpr
        (isPre_trans (isPre_append_left_iff.mp ha) hy))
  have hsrel_ne : source ++ rel ≠ [] := fun h2 =>
    hrelne (List.append_eq_nil.mp h2).2
  have hpush : ∀ st, go_deeper fsk F rest (source ++ rel) = some st →
      Inv8 fs0 source target fsk st ∧
        measureOf fs0 st < measureOf fs0 ((source ++ rel) :: rest) := by
    intro st hgd
    have hrs := resolve_symlink_nosym hsrel_ne hns_src F
    unfold go_deeper at hgd
    simp only [hrs] at hgd
    unfold read_dir at hgd
    rcases stat_nosym hns_src F with hstat | hstat
    · cases m0 with
      | file =>
        simp only [hstat, hBn] at hgd
        exact absurd hgd (by simp)
      | symlink t2 =>
        simp only [hstat, hBn] at hgd
        exact absurd hgd (by simp)
      | dir esp =>
        simp only [hstat, hBn] at hgd
        rcases Option.some.inj hgd with h3
        subst h3
        exact Inv8_push fs0 source target hnd fsk rel rest esp
          ⟨hA, hB, ⟨tesk, hT⟩, hC, hS⟩ hm0
    · simp only [hstat] at hgd
      exact absurd hgd (by simp)
  rcases hda : decide_action fsk F ow (source ++ rel) (target ++ rel)
    with _ | _ | _ | _ | _
  · -- skip
    simp only [loopStep, strip_base_append, hda] at hstep
    injection hstep with h2
    subst h2
    exact ⟨Inv8_tail ⟨hA, hB, ⟨tesk, hT⟩, hC, hS⟩, measure_tail_lt hm0⟩
  · -- pushSrc
    rcases hgd : go_deeper fsk F rest (source ++ rel) with _ | st
    · simp only [loopStep, strip_base_append, hda, hgd] at hstep
      exact absurd hstep (by simp)
    · simp only [loopStep, strip_base_append, hda, hgd] at hstep
      injection hstep with h2
      subst h2
      exact hpush st hgd
  · -- pushIfDir
    simp only [loopStep, strip_base_append, hda] at hstep
    by_cases hsd : isDirPath fsk F (source ++ rel) = true
    · rw [if_pos hsd] at hstep
      rcases hgd : go_deeper fsk F rest (source ++ rel) with _ | st
      · simp only [hgd] at hstep
        exact absurd hstep (by simp)
      · simp only [hgd] at hstep
        injection hstep with h2
        subst h2
        exact hpush st hgd
    · rw [if_neg hsd] at hstep
      injection hstep with h2
      subst h2
      exact ⟨Inv8_tail ⟨hA, hB, ⟨tesk, hT⟩, hC, hS⟩, measure_tail_lt hm0⟩
  · -- removeThenLink
    rcases List.eq_nil_or_concat rel with hrel0 | ⟨relL, b, hrelsplit⟩
    · exact absurd hrel0 hrelne
    · rw [List.concat_eq_append] at hrelsplit
      subst hrelsplit
      simp only [loopStep, strip_base_append, hda] at hstep
      rcases hrm : remove_path fsk F (target ++ (relL ++ [b])) with _ | fs1
      · simp only [hrm] at hstep
        exact absurd hstep (by simp)
      · simp only [hrm] at hstep
        rcases hcs : createSymlink fs1 F (source ++ (relL ++ [b]))
            (target ++ (relL ++ [b])) with _ | fs2
        · simp only [hcs] at hstep
          exact absurd hstep (by simp)
        · simp only [hcs] at hstep
          injection hstep with h2
          subst h2
          have hL1 : (target ++ (relL ++ [b])).getLast? = some b := by
            rw [← List.append_assoc]
            simp
          have hL2 : (target ++ (relL ++ [b])).dropLast = target ++ relL := by
            rw [← List.append_assoc]
            simp
          have hnsL : ∀ a, isPre a (target ++ relL) → a ≠ [] → ∀ l,
              getNode fsk a ≠ some (Node.symlink l) :=
            hns_tgt relL ⟨[b], rfl⟩
          unfold remove_path at hrm
          rw [ite_self] at hrm
          unfold removeAtPath at hrm
          simp only [hL1, hL2] at hrm
          rcases resolve_nosym hnsL F with hres | hres
          · simp only [hres] at hrm
            rcases hpar : getNode fsk (target ++ relL) with _ | mpar
            · simp only [hpar] at hrm
              exact absurd hrm (by simp)
            · cases mpar with
              | file =>
                simp only [hpar] at hrm
                exact absurd hrm (by simp)
              | symlink t2 =>
                simp only [hpar] at hrm
                exact absurd hrm (by simp)
              | dir esPar =>
                simp only [hpar] at hrm
                rcases hfe : findEntry esPar b with _ | vb
                · simp only [hfe] at hrm
                  exact absurd hrm (by simp)
                · simp only [hfe] at hrm
                  rcases Option.some.inj hrm with h3
                  subst h3
                  have hinv1 : Inv8 fs0 source target
                      (updateAt (fun es => delEntry es b)
                        (target ++ relL) fsk)
                      ((source ++ (relL ++ [b])) :: rest) :=
                    Inv8_remove fs0 source target hst hts fsk relL b _
                      ⟨hA, hB, ⟨tesk, hT⟩, hC, hS⟩ esPar hpar
                  have hpar1 := getNode_updateAt_self
                    (fun es => delEntry es b) (target ++ relL) fsk esPar hpar
                  have hnsL1 : ∀ a, isPre a (target ++ relL) → a ≠ [] →
                      ∀ l, getNode (updateAt (fun es => delEntry es b)
                        (target ++ relL) fsk) a ≠
                          some (Node.symlink l) := by
                    intro a ha hane l hcon
                    exact hnsL a ha hane l (symPos_del hpar b a l hcon)
                  unfold createSymlink at hcs
                  simp only [hL1, hL2] at hcs
                  rcases resolve_nosym hnsL1 F with hres1 | hres1
                  · simp only [hres1, hpar1, findEntry_delEntry_self] at hcs
                    rcases Option.some.inj hcs with h4
                    subst h4
                    exact ⟨Inv8_create fs0 source target hst hts _
                      (relL ++ [b]) relL b rest rfl hinv1
                      (delEntry esPar b) hpar1, measure_tail_lt hm0⟩
                  · simp only [hres1] at hcs
                    exact absurd hcs (by simp)
          · simp only [hres] at hrm
            exact absurd hrm (by simp)
  · -- link
    rcases List.eq_nil_or_concat rel with hrel0 | ⟨relL, b, hrelsplit⟩
    · exact absurd hrel0 hrelne
    · rw [List.concat_eq_append] at hrelsplit
      subst hrelsplit
      simp only [loopStep, strip_base_append, hda] at hstep
      rcases hcs : createSymlink fsk F (source ++ (relL ++ [b]))
          (target ++ (relL ++ [b])) with _ | fs2
      · simp only [hcs] at hstep
        exact absurd hstep (by simp)
      · simp only [hcs] at hstep
        injection hstep with h2
        subst h2
        have hL1 : (target ++ (relL ++ [b])).getLast? = some b := by
          rw [← List.append_assoc]
          simp
        have hL2 : (target ++ (relL ++ [b])).dropLast = target ++ relL := by
          rw [← List.append_assoc]
          simp
        have hnsL : ∀ a, isPre a (target ++ relL) → a ≠ [] → ∀ l,
            getNode fsk a ≠ some (Node.symlink l) :=
          hns_tgt relL ⟨[b], rfl⟩
        unfold createSymlink at hcs
        simp only [hL1, hL2] at hcs
        rcases resolve_nosym hnsL F with hres | hres
        · simp only [hres] at hcs
          rcases hpar : getNode fsk (target ++ relL) with _ | mpar
          · simp only [hpar] at hcs
            exact absurd hcs (by simp)
          · cases mpar with
            | file =>
              simp only [hpar] at hcs
              exact absurd hcs (by simp)
            | symlink t2 =>
              simp only [hpar] at hcs
              exact absurd hcs (by simp)
            | dir esPar =>
              simp only [hpar] at hcs
              rcases hfe : findEntry esPar b with _ | vb
              · simp only [hfe] at hcs
                rcases Option.some.inj hcs with h4
                subst h4
                exact ⟨Inv8_create fs0 source target hst hts fsk
                  (relL ++ [b]) relL b rest rfl
                  ⟨hA, hB, ⟨tesk, hT⟩, hC, hS⟩ esPar hpar,
                  measure_tail_lt hm0⟩
              · simp only [hfe] at hcs
                exact absurd hcs (by simp)
        · simp only [hres] at hcs
          exact absurd hcs (by simp)

/-- The loop signals completion only on an empty stack. -/
theorem loopStep_done {source target : FPath} {ow : Overwrite} {fuel : Nat}
    {s s2 : St} (h : loopStep source target ow fuel s = StepRes.done s2) :
    s2.stack = [] := by
  obtain ⟨sfs, sstack, slog⟩ := s
  cases sstack with
  | nil =>
    simp only [loopStep] at h
    injection h with h2
    rw [← h2]
  | cons source_path rest =>
    rcases hstrip : strip_base source source_path with _ | relp
    · simp only [loopStep, hstrip] at h
      cases h
    · rcases hda : decide_action sfs fuel ow source_path (target ++ relp)
        with _ | _ | _ | _ | _
      · simp only [loopStep, hstrip, hda] at h
        cases h
      · rcases hgd : go_deeper sfs fuel rest source_path with _ | st <;>
          simp only [loopStep, hstrip, hda, hgd] at h <;> cases h
      · simp only [loopStep, hstrip, hda] at h
        by_cases hsd : isDirPath sfs fuel source_path = true
        · rw [if_pos hsd] at h
          rcases hgd : go_deeper sfs fuel rest source_path with _ | st <;>
            simp only [hgd] at h <;> cases h
        · rw [if_neg hsd] at h
          cases h
      · rcases hrm : remove_path sfs fuel (target ++ relp) with _ | fs1
        · simp only [loopStep, hstrip, hda, hrm] at h
          cases h
        · rcases hcs : createSymlink fs1 fuel source_path (target ++ relp)
            with _ | fs2 <;>
            simp only [loopStep, hstrip, hda, hrm, hcs] at h <;> cases h
      · rcases hcs : createSymlink sfs fuel source_path (target ++ relp)
          with _ | fs2 <;>
          simp only [loopStep, hstrip, hda, hcs] at h <;> cases h

/-- A successful run's final state has an empty work stack. -/
theorem runLoop_ok_stack (source target : FPath) (ow : Overwrite) (F : Nat) :
    ∀ (steps : Nat) (s st : St),
      runLoop source target ow F steps s = RunResult.ok st →
      st.stack = [] := by
  intro steps
  induction steps with
  | zero =>
    intro s st h
    simp [runLoop] at h
  | succ n ih =>
    intro s st h
    unfold runLoop at h
    rcases hstep : loopStep source target ow F s with s2 | s2 | s2 <;>
      rw [hstep] at h
    · injection h with h2
      subst h2
      exact loopStep_done hstep
    · cases h
    · exact ih s2 st h

/-- From an invariant state, an iteration budget exceeding the measure
finishes the run (successfully or with an error). -/
theorem C8run (fs0 : Node) (source target : FPath) (ow : Overwrite) (F : Nat)
    (ses : List (String × Node))
    (hs0 : getNode fs0 source = some (Node.dir ses))
    (hsf : SymlinkFree fs0) (hnd : NodupNames fs0)
    (hst : ¬ isPre source target) (hts : ¬ isPre target source) :
    ∀ (B : Nat) (fsk : Node) (stack : List FPath)
      (log : List (FPath × Option Node)),
      Inv8 fs0 source target fsk stack → measureOf fs0 stack ≤ B →
      finished (runLoop source target ow F (B + 1) ⟨fsk, stack, log⟩) =
        true := by
  intro B
  induction B with
  | zero =>
    intro fsk stack log hinv hle
    cases stack with
    | nil => rfl
    | cons p rest =>
      exfalso
      obtain ⟨hA, _, _, _, _⟩ := hinv
      rcases hA p (List.mem_cons_self _ _) with ⟨rel, _, hpe, hsome⟩
      subst hpe
      rcases Option.isSome_iff_exists.mp hsome with ⟨m0, hm0⟩
      have hlt := @measure_tail_lt fs0 (source ++ rel) rest m0 hm0
      omega
  | succ B ih =>
    intro fsk stack log hinv hle
    cases stack with
    | nil => rfl
    | cons p rest =>
      unfold runLoop
      rcases hstep : loopStep source target ow F ⟨fsk, p :: rest, log⟩
        with s2 | s2 | s2
      · rfl
      · rfl
      · rcases C8step fs0 source target ow F ses hs0 hsf hnd hst hts
          fsk p rest log s2 hinv hstep with ⟨hinv2, hlt⟩
        obtain ⟨fs2, stack2, log2⟩ := s2
        have hlt2 : measureOf fs0 stack2 < measureOf fs0 (p :: rest) := hlt
        exact ih fs2 stack2 log2 hinv2 (by omega)

/-- C8 (amended): the main loop ends exactly when the work stack empties or
the first error aborts it — every successful run's final stack is empty —
and on a filesystem containing no symlink anywhere and no duplicate
directory-entry names, with disjoint canonical source and target directory
roots, a sufficient iteration budget always finishes the run, under every
overwrite policy.  (The original claim's unconditional termination is
refuted by `C8_counterexample`: a source symlink pointing back at an
ancestor re-lists it forever.) -/
theorem C8_theorem (fs0 : Node) (source target : FPath)
    (ses tes : List (String × Node)) (df dn F : Nat) (ow : Overwrite)
    (hs0 : getNode fs0 source = some (Node.dir ses))
    (ht0 : getNode fs0 target = some (Node.dir tes))
    (hst : ¬ isPre source target) (hts : ¬ isPre target source)
    (hsfN : symlinkFreeN df fs0 = true)
    (hndN : nodupN dn fs0 = true) :
    (∀ steps s st, runLoop source target ow F steps s = RunResult.ok st →
      st.stack = []) ∧
    (∃ steps, finished (generate_symlinks fs0 source target ow F steps) =
      true) := by
  have hsf := symlinkFreeN_sound df fs0 hsfN
  have hnd := nodupN_sound dn fs0 hndN
  constructor
  · intro steps s st h
    exact runLoop_ok_stack source target ow F steps s st h
  · have hcanS : canonicalize fs0 F source = some source :=
      resolve_of_getNode hs0 F
    have hcanT : canonicalize fs0 F target = some target :=
      resolve_of_getNode ht0 F
    have hd1 : isDirPath fs0 F source = true := by
      simp [isDirPath, statNode_of_getNode_dir hs0 F]
    have hd2 : isDirPath fs0 F target = true := by
      simp [isDirPath, statNode_of_getNode_dir ht0 F]
    have hrsl : resolve_symlink fs0 F source = some source :=
      resolve_symlink_of_dir hs0 F
    have hgd : go_deeper fs0 F [] source =
        some ((ses.map (fun e => source ++ [e.1])).reverse ++ []) := by
      unfold go_deeper
      rw [hrsl]
      simp [read_dir, statNode_of_getNode_dir hs0 F]
    refine ⟨measureOf fs0
      ((ses.map (fun e => source ++ [e.1])).reverse ++ []) + 1, ?_⟩
    unfold generate_symlinks
    rw [hcanS, hcanT]
    simp only [hd1, hd2, Bool.not_true, Bool.or_self]
    rw [if_neg (by simp)]
    rw [hrsl]
    simp only [hgd]
    have hndses : List.Pairwise (fun e1 e2 => e1.1 ≠ e2.1) ses := by
      have h2 := NodupNames_getNode hnd source _ hs0
      cases h2 with
      | dir es hp hs => exact hp
    have hinv0 : Inv8 fs0 source target fs0
        ((ses.map (fun e => source ++ [e.1])).reverse ++ []) := by
      refine ⟨?_, fun r => rfl, ⟨tes, ht0⟩, ?_, ?_⟩
      · intro q hq
        rcases List.mem_append.mp hq with hq | hq
        · rcases List.mem_map.mp (List.mem_reverse.mp hq) with ⟨e, he, rfl⟩
          refine ⟨[e.1], by simp, rfl, ?_⟩
          rw [getNode_concat_dir hs0, findEntry_of_mem_nodup hndses he]
          rfl
        · simp at hq
      · rw [List.pairwise_append]
        refine ⟨List.pairwise_reverse.mpr
            (List.Pairwise.imp (fun h => incomp_symm h)
              (children_pairwise_incomp hndses)), List.Pairwise.nil, ?_⟩
        intro a _ q hq
        simp at hq
      · intro q l hql
        exact absurd hql (SymlinkFree_no_symlink hsf q l)
    exact C8run fs0 source target ow F ses hs0 hsf hnd hst hts _ fs0 _ []
      hinv0 (Nat.le_refl _)

/-- C8 (witness): the amended theorem applied to the symlink-free fixture
`c6Fs` under policy `None`: successful runs end with an empty stack, and
some iteration budget finishes the run. -/
theorem C8_witness :
    (∀ steps s st, runLoop ["s"] ["t"] Overwrite.None 10 steps s =
        RunResult.ok st → st.stack = []) ∧
    (∃ steps, finished (generate_symlinks c6Fs ["s"] ["t"]
      Overwrite.None 10 steps) = true) :=
  C8_theorem c6Fs ["s"] ["t"]
    [("a", Node.file), ("d", Node.dir [("x", Node.file)])]
    [("a", Node.file)] 5 5 10 Overwrite.None rfl rfl
    (by rintro ⟨t, ht⟩; have h2 := congrArg List.head? ht; simp at h2)
    (by rintro ⟨t, ht⟩; have h2 := congrArg List.head? ht; simp at h2)
    rfl rfl

end Solderium
